import Mathlib

/-!
Verification development for the muad declarative provisioning-pipeline engine.

The development shallowly embeds the engine's core components and proves the
specification's testable properties about them:

* `Muad.Dep`  — the dependency resolver (`DependencyResolver` in
  `dependency-resolver.ts`): Kahn topological sort, cycle detection by DFS.
* `Muad.Ctx`  — the two-tier context engine (`context.ts`): read-only Facts,
  write-once Variables, and the `${{ path }}` template processor.
* `Muad.Pty`  — the pseudo-terminal prompt automation (`runWithPty` in
  `execute-bash-command.ts`).
* `Muad.Pool` — the bounded concurrency pool (`promise-pool.ts`).
* `Muad.Ansi` — overstrike normalization (`ansi-strip.ts`).
* `Muad.Bash` — the `execute-bash-command` tool's option validation.

Machine strings are modelled as Lean `String` / `List Char`; JS objects as
association lists in insertion order; JS `Set`/`Map` as lists in insertion
order (JS sets and maps iterate in insertion order).  JS exceptions are
modelled with `Except`.
-/

namespace Muad

namespace Dep

/-- An element as consumed by the dependency resolver: its unique `name` and the
`metadata.dependencies` list (absent metadata/dependencies is modelled as `[]`,
exactly as the source's `element.metadata?.dependencies || []` does).  The
other element fields (`version`, `pipeline`) are never inspected by the
resolver and are omitted from this component's model. -/
structure Element where
  name : String
  dependencies : List String
deriving Repr, DecidableEq

/-- The element names in declaration order. -/
def namesOf (elements : List Element) : List String :=
  elements.map (·.name)

/-- Dependencies of a named element, `elementMap.get(node)?.metadata?.dependencies || []`. -/
def depsOf (elements : List Element) (x : String) : List String :=
  match elements.find? (fun e => e.name == x) with
  | some e => e.dependencies
  | none => []

/-- Construction-time validation of `DependencyResolver`: `buildElementMap`
rejects duplicate element names, `validateDependencies` rejects
self-dependencies and dependencies on names that do not exist.  The
constructor throws a `DependencyError` iff this is `false`. -/
def validConstruction (elements : List Element) : Bool :=
  decide (namesOf elements).Nodup
    && elements.all (fun e =>
         e.dependencies.all (fun d => d != e.name && (namesOf elements).contains d))

/-- `buildGraph`'s adjacency list: for every element `e` (in declaration order)
and every `d ∈ e.dependencies`, `e.name` is added to `adjacencyList[d]`.  The
JS `Set` keeps one copy per dependent in insertion order, which is exactly
declaration order of the dependents. -/
def dependentsOf (elements : List Element) (d : String) : List String :=
  (elements.filter (fun e => e.dependencies.contains d)).map (·.name)

/-- `buildGraph`'s in-degree map: `inDegree[e.name]` is incremented once per
entry of `e.dependencies`, so a duplicated dependency entry counts twice
(while the adjacency `Set` above deduplicates).  Degrees are `Int` because the
source decrements JS numbers, which can go negative. -/
def initDeg (elements : List Element) (x : String) : Int :=
  match elements.find? (fun e => e.name == x) with
  | some e => (e.dependencies.length : Int)
  | none => 0

/-- The initial Kahn queue: names of in-degree zero, i.e. elements with an
empty dependency list, in `inDegree` map insertion order = declaration order. -/
def initQueue (elements : List Element) : List String :=
  (elements.filter (fun e => e.dependencies.isEmpty)).map (·.name)

/-- The inner loop of `topologicalSort` over the popped node's neighbors:
decrement each neighbor's degree in order, collecting those that reach
exactly zero as new queue entries. -/
def processNeighbors : List String → (String → Int) → List String → ((String → Int) × List String)
  | [], deg, pushes => (deg, pushes)
  | n :: rest, deg, pushes =>
    let d : Int := deg n - 1
    processNeighbors rest (fun x => if x = n then d else deg x)
      (if d = 0 then pushes ++ [n] else pushes)

/-- The `while (queue.length > 0)` loop of `topologicalSort`: pop the queue
head (`queue.shift()`), append it to the result, process its neighbors.  The
fuel argument only bounds the iteration count; `elements.length + 1` is proved
sufficient below (the loop pops each name at most once). -/
def kahnLoop (adj : String → List String) : Nat → List String → (String → Int) → List String → List String
  | 0, _, _, result => result
  | _ + 1, [], _, result => result
  | fuel + 1, c :: queue, deg, result =>
    let p := processNeighbors (adj c) deg []
    kahnLoop adj fuel (queue ++ p.2) p.1 (result ++ [c])

/-- `DependencyResolver.topologicalSort`, returning the ordered element names
(the source returns the elements themselves, recovered from the unique
name → element map). -/
def topologicalSort (elements : List Element) : List String :=
  kahnLoop (dependentsOf elements) (elements.length + 1) (initQueue elements)
    (initDeg elements) []

/-- `path.slice(path.indexOf(node)).concat([node])` from `detectCycle`. -/
def cycleSlice (path : List String) (node : String) : List String :=
  path.drop (path.indexOf node) ++ [node]

/-- Iteration over a node's dependency list inside `dfs`: recurse (via the
supplied one-level-deeper DFS) into each dependency in order, returning the
first cycle found and threading the visited set. -/
def dfsFold (dfsN : String → List String → List String → Option (List String) × List String) :
    List String → List String → List String → Option (List String) × List String
  | [], visited, _ => (none, visited)
  | d :: rest, visited, path =>
    match dfsN d visited path with
    | (some c, v) => (some c, v)
    | (none, v) => dfsFold dfsN rest v path

/-- The recursive `dfs` of `detectCycle`.  `path` doubles as the recursion
stack (the source keeps `recursionStack` and `path` exactly in sync).  The
`visited` set is threaded through (the source mutates one shared `Set`); its
insertion order is preserved.  Fuel bounds the recursion depth; since a node
is only entered when not already on `path`, depth ≤ number of elements, and
`elements.length + 1` fuel is proved sufficient below. -/
def dfsNode (deps : String → List String) : Nat → String → List String → List String →
    Option (List String) × List String
  | 0, _, visited, _ => (none, visited)
  | fuel + 1, node, visited, path =>
    if node ∈ path then (some (cycleSlice path node), visited)
    else if node ∈ visited then (none, visited)
    else dfsFold (dfsNode deps fuel) (deps node) (visited ++ [node]) (path ++ [node])

/-- The dependency-list iteration at a fixed depth, as invoked by `dfsNode`. -/
def dfsList (deps : String → List String) (fuel : Nat)
    (l : List String) (visited path : List String) : Option (List String) × List String :=
  dfsFold (dfsNode deps fuel) l visited path

theorem dfsList_nil (deps : String → List String) (fuel : Nat)
    (visited path : List String) : dfsList deps fuel [] visited path = (none, visited) := rfl

theorem dfsList_cons (deps : String → List String) (fuel : Nat) (d : String)
    (rest visited path : List String) :
    dfsList deps fuel (d :: rest) visited path
      = match dfsNode deps fuel d visited path with
        | (some c, v) => (some c, v)
        | (none, v) => dfsList deps fuel rest v path := rfl

theorem dfsNode_zero (deps : String → List String) (node : String)
    (visited path : List String) : dfsNode deps 0 node visited path = (none, visited) := rfl

theorem dfsNode_succ (deps : String → List String) (fuel : Nat) (node : String)
    (visited path : List String) :
    dfsNode deps (fuel + 1) node visited path
      = if node ∈ path then (some (cycleSlice path node), visited)
        else if node ∈ visited then (none, visited)
        else dfsList deps fuel (deps node) (visited ++ [node]) (path ++ [node]) := rfl

/-- The outer loop of `detectCycle`: run `dfs` from every not-yet-visited
element name in declaration order (`elementMap.keys()` iterates in insertion
order). -/
def detectCycleGo (deps : String → List String) (fuel : Nat) :
    List String → List String → Option (List String)
  | [], _ => none
  | x :: rest, visited =>
    if x ∈ visited then detectCycleGo deps fuel rest visited
    else
      match dfsNode deps fuel x visited [] with
      | (some c, _) => some c
      | (none, v) => detectCycleGo deps fuel rest v

/-- `DependencyResolver.detectCycle`: `some path` is the cycle reported in the
`DependencyError` message (joined with " → "); `none` corresponds to the
`"Unknown cycle detected"` fallback string. -/
def detectCycle (elements : List Element) : Option (List String) :=
  detectCycleGo (depsOf elements) (elements.length + 1) (namesOf elements) []

/-- The payload of the `DependencyError` thrown by `resolveExecutionOrder`. -/
inductive DepFailure
  | cycleFound (path : List String)
  | unknownCycle
deriving Repr, DecidableEq

/-- `DependencyResolver.resolveExecutionOrder`: run the topological sort; if it
did not place every element, throw `DependencyError` carrying the cycle
reported by `detectCycle`. -/
def resolveExecutionOrder (elements : List Element) : Except DepFailure (List String) :=
  let result := topologicalSort elements
  if result.length = elements.length then .ok result
  else
    match detectCycle elements with
    | some c => .error (.cycleFound c)
    | none => .error .unknownCycle

/-- `DependencyResolver.getIndependentElements`: elements whose dependency
list is empty (or absent, modelled as `[]`). -/
def getIndependentElements (elements : List Element) : List Element :=
  elements.filter (fun e => (e.dependencies.length == 0 : Bool))

/-- `a` appears strictly before `b` in `out`. -/
def StrictlyBefore (out : List String) (a b : String) : Prop :=
  ∃ i j, i < j ∧ out.get? i = some a ∧ out.get? j = some b

/-- A directed cycle in the dependency graph, written in "depends-on"
orientation: consecutive entries `(a, b)` satisfy `b ∈ depsOf a` (equivalently
the graph edge `b → a` in the data model's dep→dependent orientation; a cycle
exists in one orientation iff its reversal exists in the other), the first
entry equals the last, and the cycle is nonempty. -/
def IsCycleList (elements : List Element) (c : List String) : Prop :=
  2 ≤ c.length ∧ c.head? = c.getLast? ∧
    List.Chain' (fun a b => b ∈ depsOf elements a) c ∧
    ∀ x ∈ c, x ∈ namesOf elements

/-- The dependency graph has no directed cycle. -/
def NoCycle (elements : List Element) : Prop :=
  ¬ ∃ c, IsCycleList elements c

/-- Decidable acyclicity used to discharge hypotheses on concrete inputs:
every nonempty subset of the nodes contains a node none of whose dependencies
lie in the subset.  Equivalence with `NoCycle` is proved below. -/
def acyclicB (elements : List Element) : Bool :=
  (namesOf elements).sublists.all (fun s =>
    s.isEmpty || s.any (fun x => (depsOf elements x).all (fun d => !s.contains d)))

section Lemmas

variable (elements : List Element)

theorem find?_name_eq (hnd : (namesOf elements).Nodup) {e : Element} (he : e ∈ elements) :
    elements.find? (fun x => x.name == e.name) = some e := by
  induction elements with
  | nil => cases he
  | cons a tl ih =>
    simp only [namesOf, List.map_cons, List.nodup_cons] at hnd
    rcases List.mem_cons.1 he with rfl | htl
    · simp [List.find?]
    · have hne : (a.name == e.name) = false := by
        refine beq_false_of_ne fun h => hnd.1 ?_
        rw [h]
        exact List.mem_map_of_mem (·.name) htl
      simp only [List.find?, hne]
      exact ih hnd.2 htl

theorem depsOf_eq (hnd : (namesOf elements).Nodup) {e : Element} (he : e ∈ elements) :
    depsOf elements e.name = e.dependencies := by
  simp [depsOf, find?_name_eq elements hnd he]

theorem validConstruction_parts (hvc : validConstruction elements = true) :
    (namesOf elements).Nodup ∧
      ∀ e ∈ elements, ∀ d ∈ e.dependencies, d ≠ e.name ∧ d ∈ namesOf elements := by
  unfold validConstruction at hvc
  rw [Bool.and_eq_true] at hvc
  refine ⟨of_decide_eq_true hvc.1, ?_⟩
  intro e he d hd
  have := (List.all_eq_true.1 ((List.all_eq_true.1 hvc.2) _ he)) _ hd
  rw [Bool.and_eq_true] at this
  refine ⟨by simpa using this.1, by simpa using this.2⟩

theorem depsOf_subset_names (hvc : validConstruction elements = true) :
    ∀ x d, d ∈ depsOf elements x → d ∈ namesOf elements := by
  intro x d hd
  unfold depsOf at hd
  rcases hfind : elements.find? (fun e => e.name == x) with _ | e
  · rw [hfind] at hd; cases hd
  · rw [hfind] at hd
    have hmem := List.mem_of_find?_eq_some hfind
    exact ((validConstruction_parts elements hvc).2 _ hmem _ hd).2

theorem not_self_dep (hvc : validConstruction elements = true) :
    ∀ x, x ∉ depsOf elements x := by
  intro x hx
  unfold depsOf at hx
  rcases hfind : elements.find? (fun e => e.name == x) with _ | e
  · rw [hfind] at hx; cases hx
  · rw [hfind] at hx
    have hmem := List.mem_of_find?_eq_some hfind
    have hpred := List.find?_some hfind
    simp only [beq_iff_eq] at hpred
    exact ((validConstruction_parts elements hvc).2 _ hmem _ hx).1 hpred.symm

theorem mem_dependentsOf {y d : String} :
    y ∈ dependentsOf elements d ↔ ∃ e ∈ elements, e.name = y ∧ d ∈ e.dependencies := by
  unfold dependentsOf
  simp only [List.mem_map, List.mem_filter]
  constructor
  · rintro ⟨e, ⟨he, hc⟩, rfl⟩
    exact ⟨e, he, rfl, by simpa using hc⟩
  · rintro ⟨e, he, rfl, hd⟩
    exact ⟨e, ⟨he, by simpa using hd⟩, rfl⟩

theorem mem_dependentsOf_iff (hnd : (namesOf elements).Nodup) {y d : String} :
    y ∈ dependentsOf elements d ↔ y ∈ namesOf elements ∧ d ∈ depsOf elements y := by
  rw [mem_dependentsOf]
  constructor
  · rintro ⟨e, he, rfl, hd⟩
    exact ⟨List.mem_map_of_mem (·.name) he, by rwa [depsOf_eq elements hnd he]⟩
  · rintro ⟨hy, hd⟩
    rcases List.mem_map.1 hy with ⟨e, he, rfl⟩
    exact ⟨e, he, rfl, by rwa [depsOf_eq elements hnd he] at hd⟩

theorem dependentsOf_nodup (hnd : (namesOf elements).Nodup) (d : String) :
    (dependentsOf elements d).Nodup := by
  have hsub : (dependentsOf elements d).Sublist (namesOf elements) := by
    unfold dependentsOf namesOf
    exact (List.filter_sublist elements).map (·.name)
  exact hsub.nodup hnd

theorem initDeg_eq (x : String) :
    initDeg elements x = ((depsOf elements x).length : Int) := by
  unfold initDeg depsOf
  rcases hfind : elements.find? (fun e => e.name == x) with _ | e <;> simp [hfind]

theorem initQueue_nodup (hnd : (namesOf elements).Nodup) : (initQueue elements).Nodup := by
  have hsub : (initQueue elements).Sublist (namesOf elements) := by
    unfold initQueue namesOf
    exact (List.filter_sublist elements).map (·.name)
  exact hsub.nodup hnd

theorem mem_initQueue (hnd : (namesOf elements).Nodup) {x : String} :
    x ∈ initQueue elements ↔ x ∈ namesOf elements ∧ depsOf elements x = [] := by
  unfold initQueue
  simp only [List.mem_map, List.mem_filter]
  constructor
  · rintro ⟨e, ⟨he, hemp⟩, rfl⟩
    refine ⟨List.mem_map_of_mem (·.name) he, ?_⟩
    rw [depsOf_eq elements hnd he]
    exact List.isEmpty_iff.mp hemp
  · rintro ⟨hx, hdeps⟩
    rcases List.mem_map.1 hx with ⟨e, he, rfl⟩
    rw [depsOf_eq elements hnd he] at hdeps
    exact ⟨e, ⟨he, by simp [hdeps]⟩, rfl⟩

theorem processNeighbors_deg (ns : List String) (deg : String → Int) (acc : List String)
    (hns : ns.Nodup) (x : String) :
    (processNeighbors ns deg acc).1 x = if x ∈ ns then deg x - 1 else deg x := by
  induction ns generalizing deg acc with
  | nil => simp [processNeighbors]
  | cons n rest ih =>
    rcases List.nodup_cons.1 hns with ⟨hn, hrest⟩
    rw [processNeighbors, ih _ _ hrest]
    by_cases hxr : x ∈ rest
    · have hxn : ¬ x = n := fun h => hn (h ▸ hxr)
      simp [hxr, hxn, List.mem_cons]
    · by_cases hxn : x = n
      · subst hxn
        simp [hxr, List.mem_cons]
      · simp [hxr, hxn, List.mem_cons]

theorem processNeighbors_pushes (ns : List String) (deg : String → Int) (acc : List String)
    (hns : ns.Nodup) :
    (processNeighbors ns deg acc).2 = acc ++ ns.filter (fun n => deg n == 1) := by
  induction ns generalizing deg acc with
  | nil => simp [processNeighbors]
  | cons n rest ih =>
    rcases List.nodup_cons.1 hns with ⟨hn, hrest⟩
    rw [processNeighbors, ih _ _ hrest]
    have hfilter : rest.filter (fun m => (fun x => if x = n then deg n - 1 else deg x) m == 1)
        = rest.filter (fun m => deg m == 1) := by
      apply List.filter_congr
      intro m hm
      have : ¬ m = n := fun h => hn (h ▸ hm)
      simp [this]
    rw [hfilter]
    by_cases hd : deg n - 1 = 0
    · have h1 : (deg n == 1) = true := by
        have : deg n = 1 := by omega
        simp [this]
      simp [hd, List.filter_cons, h1]
    · have h1 : (deg n == 1) = false := by
        have : ¬ deg n = 1 := by omega
        simp [this]
      simp [hd, List.filter_cons, h1]

/-- Invariant of the Kahn loop state `(queue, deg, result)`:
the result is duplicate-free and downward closed under dependencies, every
dependency of a result entry precedes it, every queued node has all its
dependencies already in the result, and the degree map bounds the number of
unprocessed dependency entries from above and below (`deg_le` needing a
duplicate-free dependency list, mirroring the in-degree/adjacency mismatch of
the source on duplicated entries). -/
structure KInv (queue : List String) (deg : String → Int) (result : List String) : Prop where
  result_nodup : result.Nodup
  queue_nodup : queue.Nodup
  disj : ∀ x ∈ queue, x ∉ result
  result_sub : ∀ x ∈ result, x ∈ namesOf elements
  queue_sub : ∀ x ∈ queue, x ∈ namesOf elements
  queue_deps : ∀ x ∈ queue, ∀ d ∈ depsOf elements x, d ∈ result
  closed : ∀ x ∈ result, ∀ d ∈ depsOf elements x, d ∈ result
  ordered : result.Pairwise (fun a b => b ∉ depsOf elements a)
  deg_ge : ∀ x ∈ namesOf elements, x ∉ result → x ∉ queue →
    (((depsOf elements x).filter (fun d => !result.contains d)).length : Int) ≤ deg x
  deg_le : ∀ x ∈ namesOf elements, x ∉ result → x ∉ queue → (depsOf elements x).Nodup →
    deg x ≤ (((depsOf elements x).filter (fun d => !result.contains d)).length : Int)
  zero_mem : ∀ x ∈ namesOf elements, deg x ≤ 0 → x ∈ result ∨ x ∈ queue

section KahnStep

variable {elements}

theorem length_filter_ne_add_count (F : List String) (c : String) :
    (F.filter (fun d => !(d == c))).length + F.count c = F.length := by
  induction F with
  | nil => simp
  | cons a t ih =>
    by_cases hac : a = c
    · subst hac
      simp [List.filter_cons, List.count_cons]
      omega
    · simp [List.filter_cons, List.count_cons, beq_false_of_ne hac, hac]
      omega

theorem filter_snoc_length (L : List String) (result : List String) (c : String)
    (hc : c ∉ result) :
    ((L.filter (fun d => !(result ++ [c]).contains d)).length : Int)
      = ((L.filter (fun d => !result.contains d)).length : Int)
        - ((L.filter (fun d => !result.contains d)).count c : Int) := by
  have hstep : L.filter (fun d => !(result ++ [c]).contains d)
      = (L.filter (fun d => !result.contains d)).filter (fun d => !(d == c)) := by
    rw [List.filter_filter]
    apply List.filter_congr
    intro d _
    by_cases hdc : d = c
    · subst hdc; simp
    · by_cases hdr : d ∈ result <;> simp [hdr, hdc]
  rw [hstep]
  have := length_filter_ne_add_count (L.filter (fun d => !result.contains d)) c
  omega

theorem KInv.step (hvc : validConstruction elements = true)
    {c : String} {tail : List String} {deg : String → Int}
    {result : List String}
    (h : KInv elements (c :: tail) deg result) :
    KInv elements (tail ++ (dependentsOf elements c).filter (fun n => deg n == 1))
      (fun x => if x ∈ dependentsOf elements c then deg x - 1 else deg x)
      (result ++ [c]) := by
  have hnd := (validConstruction_parts elements hvc).1
  have hcq : c ∈ c :: tail := List.mem_cons_self c tail
  have hcnr : c ∉ result := h.disj c hcq
  have hcdeps : ∀ d ∈ depsOf elements c, d ∈ result := h.queue_deps c hcq
  -- facts about the push list
  have hpush_mem : ∀ x, x ∈ (dependentsOf elements c).filter (fun n => deg n == 1) →
      x ∈ namesOf elements ∧ c ∈ depsOf elements x ∧ deg x = 1 := by
    intro x hx
    rcases List.mem_filter.1 hx with ⟨hadj, hdeg⟩
    rcases (mem_dependentsOf_iff elements hnd).1 hadj with ⟨hxn, hcx⟩
    exact ⟨hxn, hcx, by simpa using hdeg⟩
  have hpush_fresh : ∀ x, x ∈ (dependentsOf elements c).filter (fun n => deg n == 1) →
      x ∉ result ∧ x ≠ c ∧ x ∉ tail := by
    intro x hx
    rcases hpush_mem x hx with ⟨hxn, hcx, _⟩
    refine ⟨fun hxr => hcnr (h.closed x hxr c hcx), fun hxc => ?_, fun hxt => ?_⟩
    · exact not_self_dep elements hvc c (hxc ▸ hcx)
    · exact hcnr (h.queue_deps x (List.mem_cons_of_mem c hxt) c hcx)
  have hpush_deps : ∀ x, x ∈ (dependentsOf elements c).filter (fun n => deg n == 1) →
      ∀ d ∈ depsOf elements x, d ∈ result ++ [c] := by
    intro x hx d hd
    rcases hpush_mem x hx with ⟨hxn, hcx, hdeg1⟩
    rcases hpush_fresh x hx with ⟨hxr, hxc, hxt⟩
    have hxq : x ∉ c :: tail := by
      intro hmem
      rcases List.mem_cons.1 hmem with h1 | h1
      · exact hxc h1
      · exact hxt h1
    have hge := h.deg_ge x hxn hxr hxq
    rw [hdeg1] at hge
    -- the filtered dependency list has length ≤ 1 and contains c, hence is [c]
    set F := (depsOf elements x).filter (fun d => !result.contains d) with hF
    have hFle : (F.length : Int) ≤ 1 := hge
    have hcF : c ∈ F := by
      rw [hF]
      exact List.mem_filter.2 ⟨hcx, by simpa using hcnr⟩
    by_cases hdr : d ∈ result
    · exact List.mem_append_left _ hdr
    · have hdF : d ∈ F := by
        rw [hF]
        exact List.mem_filter.2 ⟨hd, by simpa using hdr⟩
      have hlen1 : F.length = 1 := by
        have : 1 ≤ F.length := List.length_pos.2 (List.ne_nil_of_mem hcF)
        omega
      rcases List.length_eq_one.1 hlen1 with ⟨a, ha⟩
      rw [ha] at hcF hdF
      simp only [List.mem_singleton] at hcF hdF
      rw [hdF, ← hcF]
      exact List.mem_append_right _ (List.mem_singleton_self c)
  constructor
  case result_nodup =>
    rw [List.nodup_append]
    exact ⟨h.result_nodup, List.nodup_singleton c, by simpa using hcnr⟩
  case queue_nodup =>
    rw [List.nodup_append]
    refine ⟨(List.nodup_cons.1 h.queue_nodup).2,
      ((dependentsOf_nodup elements hnd c).filter _), ?_⟩
    intro x hxt hxp
    exact (hpush_fresh x hxp).2.2 hxt
  case disj =>
    intro x hx hxr
    rcases List.mem_append.1 hx with hxt | hxp
    · rcases List.mem_append.1 hxr with h1 | h1
      · exact h.disj x (List.mem_cons_of_mem c hxt) h1
      · rcases List.mem_singleton.1 h1 with rfl
        exact (List.nodup_cons.1 h.queue_nodup).1 hxt
    · rcases List.mem_append.1 hxr with h1 | h1
      · exact (hpush_fresh x hxp).1 h1
      · exact (hpush_fresh x hxp).2.1 (List.mem_singleton.1 h1)
  case result_sub =>
    intro x hx
    rcases List.mem_append.1 hx with h1 | h1
    · exact h.result_sub x h1
    · have hx := List.mem_singleton.1 h1
      rw [hx]
      exact h.queue_sub c hcq
  case queue_sub =>
    intro x hx
    rcases List.mem_append.1 hx with h1 | h1
    · exact h.queue_sub x (List.mem_cons_of_mem c h1)
    · exact (hpush_mem x h1).1
  case queue_deps =>
    intro x hx d hd
    rcases List.mem_append.1 hx with h1 | h1
    · exact List.mem_append_left _ (h.queue_deps x (List.mem_cons_of_mem c h1) d hd)
    · exact hpush_deps x h1 d hd
  case closed =>
    intro x hx d hd
    rcases List.mem_append.1 hx with h1 | h1
    · exact List.mem_append_left _ (h.closed x h1 d hd)
    · rcases List.mem_singleton.1 h1 with rfl
      exact List.mem_append_left _ (hcdeps d hd)
  case ordered =>
    rw [List.pairwise_append]
    refine ⟨h.ordered, List.pairwise_singleton _ c, ?_⟩
    intro a ha b hb
    rcases List.mem_singleton.1 hb with rfl
    intro hcd
    exact hcnr (h.closed a ha b hcd)
  case deg_ge =>
    intro x hxn hxr hxq
    have hxr0 : x ∉ result := fun hh => hxr (List.mem_append_left _ hh)
    have hxc : x ≠ c := by
      rintro rfl
      exact hxr (List.mem_append_right _ (List.mem_singleton_self x))
    have hxt : x ∉ tail := fun hh => hxq (List.mem_append_left _ hh)
    have hxq0 : x ∉ c :: tail := by
      intro hmem
      rcases List.mem_cons.1 hmem with h1 | h1
      · exact hxc h1
      · exact hxt h1
    have hge := h.deg_ge x hxn hxr0 hxq0
    rw [filter_snoc_length (depsOf elements x) result c hcnr]
    by_cases hadj : x ∈ dependentsOf elements c
    · have hcx : c ∈ depsOf elements x := ((mem_dependentsOf_iff elements hnd).1 hadj).2
      have hc_cnt : 0 < ((depsOf elements x).filter (fun d => !result.contains d)).count c :=
        List.count_pos_iff.2 (List.mem_filter.2 ⟨hcx, by simpa using hcnr⟩)
      simp only [hadj, if_pos]
      omega
    · have hcx : c ∉ depsOf elements x := by
        intro hcx
        exact hadj ((mem_dependentsOf_iff elements hnd).2 ⟨hxn, hcx⟩)
      have hc_cnt : ((depsOf elements x).filter (fun d => !result.contains d)).count c = 0 := by
        apply List.count_eq_zero.2
        intro hmem
        exact hcx (List.mem_of_mem_filter hmem)
      simp only [hadj, if_neg, not_false_iff]
      omega
  case deg_le =>
    intro x hxn hxr hxq hnodup
    have hxr0 : x ∉ result := fun hh => hxr (List.mem_append_left _ hh)
    have hxc : x ≠ c := by
      rintro rfl
      exact hxr (List.mem_append_right _ (List.mem_singleton_self x))
    have hxt : x ∉ tail := fun hh => hxq (List.mem_append_left _ hh)
    have hxq0 : x ∉ c :: tail := by
      intro hmem
      rcases List.mem_cons.1 hmem with h1 | h1
      · exact hxc h1
      · exact hxt h1
    have hle := h.deg_le x hxn hxr0 hxq0 hnodup
    rw [filter_snoc_length (depsOf elements x) result c hcnr]
    by_cases hadj : x ∈ dependentsOf elements c
    · have hcnt_le : ((depsOf elements x).filter (fun d => !result.contains d)).count c ≤ 1 :=
        List.nodup_iff_count_le_one.1 (hnodup.filter _) c
      simp only [hadj, if_pos]
      omega
    · have hcx : c ∉ depsOf elements x := by
        intro hcx
        exact hadj ((mem_dependentsOf_iff elements hnd).2 ⟨hxn, hcx⟩)
      have hc_cnt : ((depsOf elements x).filter (fun d => !result.contains d)).count c = 0 := by
        apply List.count_eq_zero.2
        intro hmem
        exact hcx (List.mem_of_mem_filter hmem)
      simp only [hadj, if_neg, not_false_iff]
      omega
  case zero_mem =>
    intro x hxn hdeg
    by_cases hadj : x ∈ dependentsOf elements c
    · simp only [hadj, if_pos] at hdeg
      by_cases hdx : deg x ≤ 0
      · rcases h.zero_mem x hxn hdx with h1 | h1
        · exact Or.inl (List.mem_append_left _ h1)
        · rcases List.mem_cons.1 h1 with rfl | h2
          · exact Or.inl (List.mem_append_right _ (List.mem_singleton_self x))
          · exact Or.inr (List.mem_append_left _ h2)
      · have hdeg1 : deg x = 1 := by omega
        refine Or.inr (List.mem_append_right _ ?_)
        exact List.mem_filter.2 ⟨hadj, by simp [hdeg1]⟩
    · simp only [hadj, if_neg, not_false_iff] at hdeg
      rcases h.zero_mem x hxn hdeg with h1 | h1
      · exact Or.inl (List.mem_append_left _ h1)
      · rcases List.mem_cons.1 h1 with rfl | h2
        · exact Or.inl (List.mem_append_right _ (List.mem_singleton_self x))
        · exact Or.inr (List.mem_append_left _ h2)

theorem kahnLoop_reaches (hvc : validConstruction elements = true) :
    ∀ (fuel : Nat) (queue : List String) (deg : String → Int) (result : List String),
      KInv elements queue deg result →
      (namesOf elements).length + 1 ≤ fuel + result.length →
      ∃ degF, KInv elements [] degF
        (kahnLoop (dependentsOf elements) fuel queue deg result) := by
  intro fuel
  induction fuel with
  | zero =>
    intro queue deg result h hfuel
    exfalso
    have hsub : result ⊆ namesOf elements := fun x hx => h.result_sub x hx
    have hle : result.length ≤ (namesOf elements).length :=
      (h.result_nodup.subperm hsub).length_le
    omega
  | succ fuel ih =>
    intro queue deg result h hfuel
    match queue with
    | [] => exact ⟨deg, h⟩
    | c :: tail =>
      have hnd := (validConstruction_parts elements hvc).1
      have hadjnd := dependentsOf_nodup elements hnd c
      have hdeg : (processNeighbors (dependentsOf elements c) deg []).1
          = fun x => if x ∈ dependentsOf elements c then deg x - 1 else deg x := by
        funext x
        exact processNeighbors_deg _ _ _ hadjnd x
      have hpush : (processNeighbors (dependentsOf elements c) deg []).2
          = (dependentsOf elements c).filter (fun n => deg n == 1) := by
        rw [processNeighbors_pushes _ _ _ hadjnd]
        rfl
      have hstep := KInv.step hvc h
      have hout : kahnLoop (dependentsOf elements) (fuel + 1) (c :: tail) deg result
          = kahnLoop (dependentsOf elements) fuel
              (tail ++ (dependentsOf elements c).filter (fun n => deg n == 1))
              (fun x => if x ∈ dependentsOf elements c then deg x - 1 else deg x)
              (result ++ [c]) := by
        rw [kahnLoop, hdeg, hpush]
      rw [hout]
      apply ih _ _ _ hstep
      simp only [List.length_append, List.length_singleton]
      omega

theorem initial_KInv (hvc : validConstruction elements = true) :
    KInv elements (initQueue elements) (initDeg elements) [] := by
  have hnd := (validConstruction_parts elements hvc).1
  have hfilter : ∀ L : List String,
      L.filter (fun d => !([] : List String).contains d) = L := by
    intro L
    apply List.filter_eq_self.2
    intro a _
    rfl
  constructor
  case result_nodup => exact List.nodup_nil
  case queue_nodup => exact initQueue_nodup elements hnd
  case disj => intro x _ hx; cases hx
  case result_sub => intro x hx; cases hx
  case queue_sub => intro x hx; exact ((mem_initQueue elements hnd).1 hx).1
  case queue_deps =>
    intro x hx d hd
    rw [((mem_initQueue elements hnd).1 hx).2] at hd
    cases hd
  case closed => intro x hx; cases hx
  case ordered => exact List.Pairwise.nil
  case deg_ge =>
    intro x _ _ _
    rw [hfilter, initDeg_eq]
  case deg_le =>
    intro x _ _ _ _
    rw [hfilter, initDeg_eq]
  case zero_mem =>
    intro x hx hdeg
    rw [initDeg_eq] at hdeg
    have hlen : (depsOf elements x).length = 0 := by omega
    exact Or.inr ((mem_initQueue elements hnd).2 ⟨hx, List.length_eq_zero.1 hlen⟩)

theorem topologicalSort_KInv (hvc : validConstruction elements = true) :
    ∃ degF, KInv elements [] degF (topologicalSort elements) := by
  have hlen : (namesOf elements).length = elements.length := List.length_map _ _
  apply kahnLoop_reaches hvc (elements.length + 1) _ _ _ (initial_KInv hvc)
  simp [hlen]

theorem depsOf_nodup_of (hdeps : ∀ e ∈ elements, e.dependencies.Nodup) (x : String) :
    (depsOf elements x).Nodup := by
  unfold depsOf
  rcases hfind : elements.find? (fun e => e.name == x) with _ | e
  · rw [hfind]
    exact List.nodup_nil
  · rw [hfind]
    exact hdeps e (List.mem_of_find?_eq_some hfind)

theorem topologicalSort_complete (hvc : validConstruction elements = true)
    (hdeps : ∀ e ∈ elements, e.dependencies.Nodup)
    (hacy : acyclicB elements = true) :
    ∀ x ∈ namesOf elements, x ∈ topologicalSort elements := by
  rcases topologicalSort_KInv hvc with ⟨degF, hK⟩
  by_contra hmiss
  push_neg at hmiss
  rcases hmiss with ⟨x0, hx0n, hx0o⟩
  set out := topologicalSort elements with hout
  set s := (namesOf elements).filter (fun x => !out.contains x) with hs
  have hx0s : x0 ∈ s := by
    rw [hs]
    exact List.mem_filter.2 ⟨hx0n, by simpa using hx0o⟩
  have hssub : s.Sublist (namesOf elements) := List.filter_sublist _
  have hsnil : s ≠ [] := List.ne_nil_of_mem hx0s
  have hclause := (List.all_eq_true.1 hacy) s (List.mem_sublists.2 hssub)
  rw [Bool.or_eq_true] at hclause
  rcases hclause with hemp | hany
  · exact hsnil (List.isEmpty_iff.mp hemp)
  · rcases List.any_eq_true.1 hany with ⟨x, hxs, hxall⟩
    have hxn : x ∈ namesOf elements := (List.mem_filter.1 hxs).1
    have hxo : x ∉ out := by
      have := (List.mem_filter.1 hxs).2
      simpa using this
    have hdall : ∀ d ∈ depsOf elements x, d ∈ out := by
      intro d hd
      have hds := (List.all_eq_true.1 hxall) d hd
      have hdnames : d ∈ namesOf elements := depsOf_subset_names elements hvc x d hd
      have hdns : d ∉ s := by simpa using hds
      by_contra hdo
      exact hdns (List.mem_filter.2 ⟨hdnames, by simpa using hdo⟩)
    have hfe : (depsOf elements x).filter (fun d => !out.contains d) = [] := by
      apply List.filter_eq_nil_iff.2
      intro d hd
      simpa using hdall d hd
    have hle := hK.deg_le x hxn hxo (by intro h; cases h) (depsOf_nodup_of hdeps x)
    rw [hfe] at hle
    have hzero := hK.zero_mem x hxn (by simpa using hle)
    rcases hzero with h1 | h1
    · exact hxo h1
    · cases h1

theorem topologicalSort_perm (hvc : validConstruction elements = true)
    (hdeps : ∀ e ∈ elements, e.dependencies.Nodup)
    (hacy : acyclicB elements = true) :
    (topologicalSort elements).Perm (namesOf elements) := by
  rcases topologicalSort_KInv hvc with ⟨degF, hK⟩
  have hnd := (validConstruction_parts elements hvc).1
  have h1 : List.Subperm (topologicalSort elements) (namesOf elements) :=
    hK.result_nodup.subperm (fun x hx => hK.result_sub x hx)
  have h2 : List.Subperm (namesOf elements) (topologicalSort elements) :=
    hnd.subperm (fun x hx => topologicalSort_complete hvc hdeps hacy x hx)
  exact h1.antisymm h2

theorem topologicalSort_before (hvc : validConstruction elements = true)
    (hdeps : ∀ e ∈ elements, e.dependencies.Nodup)
    (hacy : acyclicB elements = true) :
    ∀ e ∈ elements, ∀ d ∈ e.dependencies,
      StrictlyBefore (topologicalSort elements) d e.name := by
  rcases topologicalSort_KInv hvc with ⟨degF, hK⟩
  have hnd := (validConstruction_parts elements hvc).1
  intro e he d hd
  have hdVal := (validConstruction_parts elements hvc).2 e he d hd
  have hdeq : depsOf elements e.name = e.dependencies := depsOf_eq elements hnd he
  set out := topologicalSort elements with hout
  have hdout : d ∈ out := topologicalSort_complete hvc hdeps hacy d hdVal.2
  have hnout : e.name ∈ out :=
    topologicalSort_complete hvc hdeps hacy e.name (List.mem_map_of_mem (·.name) he)
  rcases List.mem_iff_get?.mp hdout with ⟨i, hi⟩
  rcases List.mem_iff_get?.mp hnout with ⟨j, hj⟩
  rcases List.get?_eq_some.1 hi with ⟨hilt, higet⟩
  rcases List.get?_eq_some.1 hj with ⟨hjlt, hjget⟩
  have hij : j < i → False := by
    intro hlt
    have := (List.pairwise_iff_get.1 hK.ordered) ⟨j, hjlt⟩ ⟨i, hilt⟩ hlt
    rw [higet, hjget, hdeq] at this
    exact this hd
  have hne : i ≠ j := by
    intro hij0
    apply hdVal.1
    rw [← higet, ← hjget]
    simp [hij0]
  refine ⟨i, j, ?_, hi, hj⟩
  rcases Nat.lt_trichotomy i j with h1 | h1 | h1
  · exact h1
  · exact absurd h1 hne
  · exact absurd h1 hij

theorem edge_indexOf_lt (hvc : validConstruction elements = true) {out : List String}
    (hpw : out.Pairwise (fun a b => b ∉ depsOf elements a))
    {a b : String} (ha : a ∈ out) (hb : b ∈ out) (hedge : b ∈ depsOf elements a) :
    out.indexOf b < out.indexOf a := by
  have hia := List.indexOf_lt_length.2 ha
  have hib := List.indexOf_lt_length.2 hb
  rcases Nat.lt_trichotomy (out.indexOf b) (out.indexOf a) with h | h | h
  · exact h
  · exfalso
    have hab : b = a := by
      have h1 : out.get ⟨out.indexOf b, hib⟩ = b := List.indexOf_get hib
      have h2 : out.get ⟨out.indexOf a, hia⟩ = a := List.indexOf_get hia
      rw [← h1, ← h2]
      congr 1
      exact Fin.ext h
    rw [hab] at hedge
    exact not_self_dep elements hvc a hedge
  · exfalso
    have := (List.pairwise_iff_get.1 hpw) ⟨out.indexOf a, hia⟩ ⟨out.indexOf b, hib⟩ h
    rw [List.indexOf_get hia, List.indexOf_get hib] at this
    exact this hedge

theorem chain_getLast_lt (hvc : validConstruction elements = true) {out : List String}
    (hpw : out.Pairwise (fun a b => b ∉ depsOf elements a)) :
    ∀ (t : List String) (x y : String),
      List.Chain' (fun a b => b ∈ depsOf elements a) (x :: y :: t) →
      (∀ z ∈ x :: y :: t, z ∈ out) →
      out.indexOf ((y :: t).getLast (List.cons_ne_nil y t)) < out.indexOf x := by
  intro t
  induction t with
  | nil =>
    intro x y hchain hmem
    have hedge := (List.chain'_cons.1 hchain).1
    simp only [List.getLast_singleton]
    exact edge_indexOf_lt hvc hpw (hmem x (by simp)) (hmem y (by simp)) hedge
  | cons z t ih =>
    intro x y hchain hmem
    have hedge := (List.chain'_cons.1 hchain).1
    have hrest := (List.chain'_cons.1 hchain).2
    have hlast : (y :: z :: t).getLast (List.cons_ne_nil y (z :: t))
        = (z :: t).getLast (List.cons_ne_nil z t) := List.getLast_cons _
    rw [hlast]
    have hih := ih y z hrest (fun w hw => hmem w (List.mem_cons_of_mem x hw))
    have hxy : out.indexOf y < out.indexOf x :=
      edge_indexOf_lt hvc hpw (hmem x (by simp)) (hmem y (by simp)) hedge
    omega

theorem no_cycle_entries (hvc : validConstruction elements = true) {out : List String}
    (hpw : out.Pairwise (fun a b => b ∉ depsOf elements a)) :
    ∀ c, IsCycleList elements c → (∀ x ∈ c, x ∈ out) → False := by
  intro c hc hmem
  rcases hc with ⟨hlen, hhl, hchain, _⟩
  match c, hlen with
  | x :: y :: t, _ =>
    have hhead : (x :: y :: t).head? = some x := rfl
    have hlast : (x :: y :: t).getLast? = some ((x :: y :: t).getLast (by simp)) := by
      rw [List.getLast?_eq_getLast _ (by simp)]
    rw [hhead, hlast] at hhl
    have hx_last : (x :: y :: t).getLast (by simp) = x := Option.some.inj hhl.symm
    have hcons : (x :: y :: t).getLast (by simp)
        = (y :: t).getLast (List.cons_ne_nil y t) := List.getLast_cons _
    have := chain_getLast_lt hvc hpw t x y hchain hmem
    rw [← hcons, hx_last] at this
    omega

theorem cycle_succ {c : List String} (hc : IsCycleList elements c) :
    ∀ x ∈ c, ∃ y, y ∈ depsOf elements x ∧ y ∈ c := by
  rcases hc with ⟨hlen, hhl, hchain, _⟩
  intro x hx
  rcases List.append_of_mem hx with ⟨u, v, rfl⟩
  match v with
  | y :: v2 =>
    have hsuf : List.Chain' (fun a b => b ∈ depsOf elements a) (x :: y :: v2) :=
      List.Chain'.right_of_append hchain
    exact ⟨y, (List.chain'_cons.1 hsuf).1, by simp⟩
  | [] =>
    have hlast : (u ++ [x]).getLast? = some x := List.getLast?_concat u
    rw [hlast] at hhl
    match u with
    | [] => simp at hlen
    | a :: u2 =>
      have hhead : ((a :: u2) ++ [x]).head? = some a := rfl
      rw [hhead] at hhl
      have hax : a = x := Option.some.inj hhl
      subst hax
      match u2 with
      | [] =>
        have h2 : a ∈ depsOf elements a ∧ True := by
          have h3 : List.Chain' (fun p q => q ∈ depsOf elements p) [a, a] := by
            simpa using hchain
          exact ⟨(List.chain'_cons.1 h3).1, trivial⟩
        exact ⟨a, h2.1, by simp⟩
      | b :: u3 =>
        have h3 : List.Chain' (fun p q => q ∈ depsOf elements p) (a :: b :: (u3 ++ [a])) := by
          simpa using hchain
        exact ⟨b, (List.chain'_cons.1 h3).1, by simp⟩

theorem acyclicB_noCycle (hacy : acyclicB elements = true) : NoCycle elements := by
  rintro ⟨c, hc⟩
  have hcnames := hc.2.2.2
  set s := (namesOf elements).filter (fun x => c.contains x) with hs
  have hssub : s.Sublist (namesOf elements) := List.filter_sublist _
  have hclause := (List.all_eq_true.1 hacy) s (List.mem_sublists.2 hssub)
  have hcne : c ≠ [] := by
    intro h
    rw [h] at hc
    simp [IsCycleList] at hc
  rcases List.exists_mem_of_ne_nil c hcne with ⟨x, hxc⟩
  have hxs : x ∈ s := by
    rw [hs]
    exact List.mem_filter.2 ⟨hcnames x hxc, by simpa using hxc⟩
  rw [Bool.or_eq_true] at hclause
  rcases hclause with hemp | hany
  · rw [List.isEmpty_iff.mp hemp] at hxs
    cases hxs
  · rcases List.any_eq_true.1 hany with ⟨z, hzs, hzall⟩
    have hzc : z ∈ c := by
      have := (List.mem_filter.1 hzs).2
      simpa using this
    rcases cycle_succ hc z hzc with ⟨y, hydep, hyc⟩
    have hys : y ∈ s := by
      rw [hs]
      exact List.mem_filter.2 ⟨hcnames y hyc, by simpa using hyc⟩
    have hnot := (List.all_eq_true.1 hzall) y hydep
    have : y ∉ s := by simpa using hnot
    exact this hys

theorem exists_dup {l : List String} (h : ¬ l.Nodup) :
    ∃ a u v w, l = u ++ a :: v ++ a :: w := by
  induction l with
  | nil => exact absurd List.nodup_nil h
  | cons a t ih =>
    by_cases hat : a ∈ t
    · rcases List.append_of_mem hat with ⟨v, w, rfl⟩
      exact ⟨a, [], v, w, rfl⟩
    · have hnt : ¬ t.Nodup := fun hn => h (List.nodup_cons.2 ⟨hat, hn⟩)
      rcases ih hnt with ⟨b, u, v, w, rfl⟩
      exact ⟨b, a :: u, v, w, rfl⟩

theorem chain_exists {s : List String}
    (hsucc : ∀ x ∈ s, ∃ d, d ∈ depsOf elements x ∧ d ∈ s) :
    ∀ (k : Nat), ∀ x ∈ s, ∃ p : List String, p.length = k + 1 ∧ p.head? = some x ∧
      List.Chain' (fun a b => b ∈ depsOf elements a) p ∧ ∀ y ∈ p, y ∈ s := by
  intro k
  induction k with
  | zero =>
    intro x hx
    refine ⟨[x], rfl, rfl, List.chain'_singleton x, ?_⟩
    intro y hy
    rw [List.mem_singleton.1 hy]
    exact hx
  | succ k ih =>
    intro x hx
    rcases hsucc x hx with ⟨d, hd, hds⟩
    rcases ih d hds with ⟨p, hlen, hhead, hchain, hmem⟩
    refine ⟨x :: p, by simp [hlen], rfl, ?_, ?_⟩
    · rw [List.chain'_cons']
      refine ⟨?_, hchain⟩
      intro b hb
      rw [hhead] at hb
      obtain rfl := Option.mem_some_iff.1 hb
      exact hd
    · intro y hy
      rcases List.mem_cons.1 hy with rfl | hyp
      · exact hx
      · exact hmem y hyp

theorem noCycle_acyclicB (hvc : validConstruction elements = true)
    (hnc : NoCycle elements) : acyclicB elements = true := by
  by_contra hne
  have hnd := (validConstruction_parts elements hvc).1
  rw [acyclicB] at hne
  have hex : ∃ s ∈ (namesOf elements).sublists,
      ¬ ((s.isEmpty || s.any (fun x => (depsOf elements x).all (fun d => !s.contains d))) = true) := by
    by_contra hall
    push_neg at hall
    exact hne (List.all_eq_true.2 hall)
  rcases hex with ⟨s, hsm, hbad⟩
  rw [Bool.or_eq_true] at hbad
  push_neg at hbad
  have hsne : s ≠ [] := by
    intro h
    exact hbad.1 (by simp [h])
  have hsucc : ∀ x ∈ s, ∃ d, d ∈ depsOf elements x ∧ d ∈ s := by
    intro x hxs
    by_contra hno
    push_neg at hno
    apply hbad.2
    apply List.any_eq_true.2
    refine ⟨x, hxs, List.all_eq_true.2 ?_⟩
    intro d hd
    have := hno d hd
    simpa using this
  have hsnd : s.Nodup := (List.mem_sublists.1 hsm).nodup hnd
  rcases List.exists_mem_of_ne_nil s hsne with ⟨x0, hx0⟩
  rcases chain_exists hsucc s.length x0 hx0 with ⟨p, hplen, _, hpchain, hpmem⟩
  have hpnodup : ¬ p.Nodup := by
    intro hpn
    have : p.length ≤ s.length := (hpn.subperm (fun y hy => hpmem y hy)).length_le
    omega
  rcases exists_dup hpnodup with ⟨a, u, v, w, hdecomp⟩
  apply hnc
  refine ⟨a :: v ++ [a], ?_, ?_, ?_, ?_⟩
  · simp
  · have : (a :: v ++ [a]).getLast? = some a := by
      have h1 : a :: v ++ [a] = (a :: v) ++ [a] := by simp
      rw [h1, List.getLast?_concat]
    rw [this]
    rfl
  · have hinf : (a :: v ++ [a]) <:+: p := by
      refine ⟨u, w, ?_⟩
      rw [hdecomp]
      simp
    exact hpchain.infix hinf
  · intro y hy
    have hyp : y ∈ p := by
      rw [hdecomp]
      rcases List.mem_cons.1 hy with rfl | hy2
      · simp
      · rcases List.mem_append.1 hy2 with hy3 | hy3
        · simp [hy3]
        · rw [List.mem_singleton.1 hy3]
          simp
    exact (List.mem_sublists.1 hsm).subset (hpmem y hyp)

theorem topologicalSort_incomplete (hvc : validConstruction elements = true)
    (hcyc : ∃ c, IsCycleList elements c) :
    (topologicalSort elements).length ≠ elements.length := by
  rcases topologicalSort_KInv hvc with ⟨degF, hK⟩
  intro hlen
  have hsub : List.Subperm (topologicalSort elements) (namesOf elements) :=
    hK.result_nodup.subperm (fun x hx => hK.result_sub x hx)
  have hperm : (topologicalSort elements).Perm (namesOf elements) := by
    apply hsub.perm_of_length_le
    have hnl : (namesOf elements).length = elements.length := List.length_map _ _
    omega
  rcases hcyc with ⟨c, hc⟩
  apply no_cycle_entries hvc hK.ordered c hc
  intro x hx
  exact hperm.symm.subset (hc.2.2.2 x hx)

end KahnStep

section Dfs

/-- The finished-set characterization threading through the `detectCycle` DFS:
`FL` lists exactly the nodes that are visited but no longer on the recursion
stack. -/
def MemChar (visited path FL : List String) : Prop :=
  ∀ x, x ∈ FL ↔ (x ∈ visited ∧ x ∉ path)

/-- Finished nodes of the DFS in finishing order: duplicate-free, closed under
dependencies, and every dependency of an entry precedes it. -/
def FinOrd (deps : String → List String) (FL : List String) : Prop :=
  FL.Nodup ∧ (∀ x ∈ FL, ∀ d ∈ deps x, d ∈ FL) ∧
    FL.Pairwise (fun a b => b ∉ deps a)

variable {deps : String → List String} {N : List String}

mutual

/-- Soundness of the DFS: a returned cycle starts and ends with the same node,
follows depends-on edges, and stays within the node set. -/
theorem dfsNode_some (hsub : ∀ x d, d ∈ deps x → d ∈ N) (fuel : Nat)
    (node : String) (visited path : List String) (cyc v : List String)
    (hrun : dfsNode deps fuel node visited path = (some cyc, v))
    (hchain : List.Chain' (fun a b => b ∈ deps a) (path ++ [node]))
    (hmem : ∀ x ∈ path ++ [node], x ∈ N) :
    2 ≤ cyc.length ∧ cyc.head? = cyc.getLast? ∧
      List.Chain' (fun a b => b ∈ deps a) cyc ∧ ∀ x ∈ cyc, x ∈ N := by
  match fuel with
  | 0 =>
    rw [dfsNode] at hrun
    exact absurd (congrArg Prod.fst hrun) (by simp)
  | fuel + 1 =>
    rw [dfsNode] at hrun
    by_cases hp : node ∈ path
    · rw [if_pos hp] at hrun
      injection hrun with h1 h2
      injection h1 with h1
      subst h1
      have hilt : path.indexOf node < path.length := List.indexOf_lt_length.2 hp
      have hcyc2 : cycleSlice path node = path.drop (path.indexOf node) ++ [node] := rfl
      have hdrop : path.drop (path.indexOf node)
          = node :: path.drop (path.indexOf node + 1) := by
        rw [List.drop_eq_get_cons hilt, List.indexOf_get hilt]
      refine ⟨?_, ?_, ?_, ?_⟩
      · rw [hcyc2, hdrop]
        simp
      · rw [hcyc2, hdrop]
        rw [show node :: path.drop (path.indexOf node + 1) ++ [node]
            = (node :: path.drop (path.indexOf node + 1)) ++ [node] from rfl]
        rw [List.getLast?_concat]
        rfl
      · rw [hcyc2]
        have hsplit : path.drop (path.indexOf node) ++ [node]
            = (path ++ [node]).drop (path.indexOf node) := by
          rw [List.drop_append_of_le_length (Nat.le_of_lt hilt)]
        rw [hsplit]
        exact hchain.infix (List.drop_suffix _ _).isInfix
      · intro x hx
        rw [hcyc2] at hx
        rcases List.mem_append.1 hx with h1 | h1
        · exact hmem x (List.mem_append_left _ (List.mem_of_mem_drop h1))
        · rw [List.mem_singleton.1 h1]
          exact hmem node (List.mem_append_right _ (List.mem_singleton_self node))
    · rw [if_neg hp] at hrun
      by_cases hv : node ∈ visited
      · rw [if_pos hv] at hrun
        cases hrun
      · rw [if_neg hv] at hrun
        refine dfsList_some hsub fuel (deps node) (visited ++ [node]) (path ++ [node])
          cyc v hrun ?_ ?_
        · -- every entry of `deps node` extends the chain `path ++ [node]`
          intro d hd
          rw [List.chain'_append]
          refine ⟨hchain, List.chain'_singleton d, ?_⟩
          intro a ha b hb
          rw [List.getLast?_concat] at ha
          obtain rfl := Option.mem_some_iff.1 ha
          obtain rfl := Option.mem_some_iff.1 hb
          exact hd
        · intro d hd x hx
          rcases List.mem_append.1 hx with h1 | h1
          · exact hmem x h1
          · rw [List.mem_singleton.1 h1]
            exact hsub node d hd
  termination_by (fuel, 0)

/-- Soundness of the DFS dependency-list iteration: the chain hypothesis holds
for each candidate extension of the current recursion path. -/
theorem dfsList_some (hsub : ∀ x d, d ∈ deps x → d ∈ N) (fuel : Nat)
    (l : List String) (visited path : List String) (cyc v : List String)
    (hrun : dfsList deps fuel l visited path = (some cyc, v))
    (hchains : ∀ d ∈ l, List.Chain' (fun a b => b ∈ deps a) (path ++ [d]))
    (hmems : ∀ d ∈ l, ∀ x ∈ path ++ [d], x ∈ N) :
    2 ≤ cyc.length ∧ cyc.head? = cyc.getLast? ∧
      List.Chain' (fun a b => b ∈ deps a) cyc ∧ ∀ x ∈ cyc, x ∈ N := by
  match l with
  | [] =>
    rw [dfsList_nil] at hrun
    exact absurd (congrArg Prod.fst hrun) (by simp)
  | d :: rest =>
    rw [dfsList_cons] at hrun
    rcases hnd : dfsNode deps fuel d visited path with ⟨res, v1⟩
    rw [hnd] at hrun
    match res, hrun with
    | some c, hrun =>
      injection hrun with h1 h2
      injection h1 with h1
      subst h1
      exact dfsNode_some hsub fuel d visited path c v1 hnd
        (hchains d (List.mem_cons_self d rest)) (hmems d (List.mem_cons_self d rest))
    | none, hrun =>
      refine dfsList_some hsub fuel rest v1 path cyc v hrun ?_ ?_
      · exact fun e he => hchains e (List.mem_cons_of_mem d he)
      · exact fun e he => hmems e (List.mem_cons_of_mem d he)
  termination_by (fuel, l.length + 1)

end

mutual

/-- If the DFS finishes a node without reporting a cycle, the visited set only
grows, the node ends up visited and off the recursion stack, and the
finished-set invariant (`MemChar` + `FinOrd`) is preserved. -/
theorem dfsNode_none (hsub : ∀ x d, d ∈ deps x → d ∈ N) (fuel : Nat)
    (node : String) (visited path : List String) (v : List String)
    (hrun : dfsNode deps fuel node visited path = (none, v))
    (hfuel : N.length + 1 ≤ fuel + path.length)
    (hpathN : ∀ x ∈ path, x ∈ N) (hnodeN : node ∈ N) (hpnd : path.Nodup)
    (hvisN : ∀ x ∈ visited, x ∈ N)
    (FL : List String) (hchar : MemChar visited path FL) (hord : FinOrd deps FL) :
    (∀ x ∈ visited, x ∈ v) ∧ node ∈ v ∧ node ∉ path ∧ (∀ x ∈ v, x ∈ N) ∧
      ∃ FL2, MemChar v path FL2 ∧ FinOrd deps FL2 := by
  match fuel with
  | 0 =>
    exfalso
    have hplen : path.length ≤ N.length := (hpnd.subperm hpathN).length_le
    omega
  | fuel + 1 =>
    rw [dfsNode] at hrun
    by_cases hp : node ∈ path
    · rw [if_pos hp] at hrun
      exact absurd (congrArg Prod.fst hrun) (by simp)
    · rw [if_neg hp] at hrun
      by_cases hv : node ∈ visited
      · rw [if_pos hv] at hrun
        have hveq : visited = v := congrArg Prod.snd hrun
        subst hveq
        exact ⟨fun x hx => hx, hv, hp, hvisN, FL, hchar, hord⟩
      · rw [if_neg hv] at hrun
        have hres := dfsList_none hsub fuel (deps node) (visited ++ [node])
          (path ++ [node]) v hrun
          (by
            simp only [List.length_append, List.length_singleton]
            omega)
          (by
            intro x hx
            rcases List.mem_append.1 hx with h1 | h1
            · exact hpathN x h1
            · rw [List.mem_singleton.1 h1]; exact hnodeN)
          (fun d hd => hsub node d hd)
          (by
            rw [List.nodup_append]
            exact ⟨hpnd, List.nodup_singleton node, by simpa using hp⟩)
          (by
            intro x hx
            rcases List.mem_append.1 hx with h1 | h1
            · exact hvisN x h1
            · rw [List.mem_singleton.1 h1]; exact hnodeN)
          FL
          (by
            intro x
            constructor
            · intro hx
              rcases (hchar x).1 hx with ⟨hxv, hxp⟩
              refine ⟨List.mem_append_left _ hxv, ?_⟩
              intro hmem
              rcases List.mem_append.1 hmem with h1 | h1
              · exact hxp h1
              · rw [List.mem_singleton.1 h1] at hxv
                exact hv hxv
            · rintro ⟨hxv, hxp⟩
              have hxnode : x ≠ node := by
                intro h
                apply hxp
                rw [h]
                exact List.mem_append_right _ (List.mem_singleton_self node)
              have hxv2 : x ∈ visited := by
                rcases List.mem_append.1 hxv with h1 | h1
                · exact h1
                · exact absurd (List.mem_singleton.1 h1) hxnode
              have hxp2 : x ∉ path := fun h => hxp (List.mem_append_left _ h)
              exact (hchar x).2 ⟨hxv2, hxp2⟩)
          hord
        rcases hres with ⟨hgrow, hall, hvN, ⟨FL2, hchar2, hord2⟩⟩
        have hnodev : node ∈ v := hgrow node (List.mem_append_right _ (List.mem_singleton_self node))
        have hnode_nFL2 : node ∉ FL2 := by
          intro h
          exact ((hchar2 node).1 h).2 (List.mem_append_right _ (List.mem_singleton_self node))
        refine ⟨fun x hx => hgrow x (List.mem_append_left _ hx), hnodev, hp, hvN,
          FL2 ++ [node], ?_, ?_, ?_, ?_⟩
        · -- MemChar v path (FL2 ++ [node])
          intro x
          constructor
          · intro hx
            rcases List.mem_append.1 hx with h1 | h1
            · rcases (hchar2 x).1 h1 with ⟨hxv, hxp⟩
              exact ⟨hxv, fun h => hxp (List.mem_append_left _ h)⟩
            · rw [List.mem_singleton.1 h1]
              exact ⟨hnodev, hp⟩
          · rintro ⟨hxv, hxp⟩
            by_cases hxn : x = node
            · exact List.mem_append_right _ (by rw [hxn]; exact List.mem_singleton_self node)
            · refine List.mem_append_left _ ((hchar2 x).2 ⟨hxv, ?_⟩)
              intro h
              rcases List.mem_append.1 h with h1 | h1
              · exact hxp h1
              · exact hxn (List.mem_singleton.1 h1)
        · -- Nodup
          rw [List.nodup_append]
          exact ⟨hord2.1, List.nodup_singleton node, by simpa using hnode_nFL2⟩
        · -- closed
          intro x hx d hd
          rcases List.mem_append.1 hx with h1 | h1
          · exact List.mem_append_left _ (hord2.2.1 x h1 d hd)
          · rw [List.mem_singleton.1 h1] at hd
            rcases hall d hd with ⟨hdv, hdp⟩
            refine List.mem_append_left _ ((hchar2 d).2 ⟨hdv, ?_⟩)
            exact hdp
        · -- pairwise
          rw [List.pairwise_append]
          refine ⟨hord2.2.2, List.pairwise_singleton _ node, ?_⟩
          intro a ha b hb
          rw [List.mem_singleton.1 hb]
          intro hmem
          exact hnode_nFL2 (hord2.2.1 a ha node hmem)
  termination_by (fuel, 0)

/-- The list-iteration counterpart of `dfsNode_none`: every dependency in the
list ends up visited and off the recursion stack. -/
theorem dfsList_none (hsub : ∀ x d, d ∈ deps x → d ∈ N) (fuel : Nat)
    (l : List String) (visited path : List String) (v : List String)
    (hrun : dfsList deps fuel l visited path = (none, v))
    (hfuel : N.length + 1 ≤ fuel + path.length)
    (hpathN : ∀ x ∈ path, x ∈ N) (hlN : ∀ d ∈ l, d ∈ N) (hpnd : path.Nodup)
    (hvisN : ∀ x ∈ visited, x ∈ N)
    (FL : List String) (hchar : MemChar visited path FL) (hord : FinOrd deps FL) :
    (∀ x ∈ visited, x ∈ v) ∧ (∀ d ∈ l, d ∈ v ∧ d ∉ path) ∧ (∀ x ∈ v, x ∈ N) ∧
      ∃ FL2, MemChar v path FL2 ∧ FinOrd deps FL2 := by
  match l with
  | [] =>
    rw [dfsList_nil] at hrun
    have hveq : visited = v := congrArg Prod.snd hrun
    subst hveq
    refine ⟨fun x hx => hx, ?_, hvisN, FL, hchar, hord⟩
    intro d hd
    cases hd
  | d :: rest =>
    rw [dfsList_cons] at hrun
    rcases hnd : dfsNode deps fuel d visited path with ⟨res, v1⟩
    rw [hnd] at hrun
    match res, hrun with
    | some c, hrun =>
      exact absurd (congrArg Prod.fst hrun) (by simp)
    | none, hrun =>
      have hd1 := dfsNode_none hsub fuel d visited path v1 hnd hfuel hpathN
        (hlN d (List.mem_cons_self d rest)) hpnd hvisN FL hchar hord
      rcases hd1 with ⟨hgrow1, hdv1, hdp, hv1N, ⟨FL1, hchar1, hord1⟩⟩
      have hd2 := dfsList_none hsub fuel rest v1 path v hrun hfuel hpathN
        (fun e he => hlN e (List.mem_cons_of_mem d he)) hpnd hv1N FL1 hchar1 hord1
      rcases hd2 with ⟨hgrow2, hrest, hvN, hFL2⟩
      refine ⟨fun x hx => hgrow2 x (hgrow1 x hx), ?_, hvN, hFL2⟩
      intro e he
      rcases List.mem_cons.1 he with rfl | he2
      · exact ⟨hgrow2 e hdv1, hdp⟩
      · exact hrest e he2
  termination_by (fuel, l.length + 1)

end

/-- The outer `detectCycle` loop preserves the finished-set invariant and
visits every root; when it reports no cycle, all roots end up in a
duplicate-free, dependency-closed, dependency-ordered finished list. -/
theorem detectCycleGo_none (hsub : ∀ x d, d ∈ deps x → d ∈ N) (fuel : Nat)
    (hfuel : N.length + 1 ≤ fuel) :
    ∀ (roots visited : List String),
      detectCycleGo deps fuel roots visited = none →
      (∀ r ∈ roots, r ∈ N) → (∀ x ∈ visited, x ∈ N) →
      ∀ FL, MemChar visited [] FL → FinOrd deps FL →
      ∃ FL2, FinOrd deps FL2 ∧ (∀ r ∈ roots, r ∈ FL2) ∧
        (∀ x ∈ visited, x ∈ FL2) ∧ (∀ x ∈ FL2, x ∈ N) := by
  intro roots
  induction roots with
  | nil =>
    intro visited _ _ hvisN FL hchar hord
    refine ⟨FL, hord, ?_, ?_, ?_⟩
    · intro r hr
      cases hr
    · intro x hx
      exact (hchar x).2 ⟨hx, by intro h; cases h⟩
    · intro x hx
      exact hvisN x ((hchar x).1 hx).1
  | cons r rest ih =>
    intro visited hrun hrootsN hvisN FL hchar hord
    rw [detectCycleGo] at hrun
    by_cases hrv : r ∈ visited
    · rw [if_pos hrv] at hrun
      rcases ih visited hrun (fun q hq => hrootsN q (List.mem_cons_of_mem r hq))
        hvisN FL hchar hord with ⟨FL2, hord2, hroots2, hvis2, hFL2N⟩
      exact ⟨FL2, hord2, by
        intro q hq
        rcases List.mem_cons.1 hq with rfl | hq2
        · exact hvis2 q hrv
        · exact hroots2 q hq2, hvis2, hFL2N⟩
    · rw [if_neg hrv] at hrun
      rcases hnd : dfsNode deps fuel r visited [] with ⟨res, v1⟩
      rw [hnd] at hrun
      match res, hrun with
      | some c, hrun => cases hrun
      | none, hrun =>
        have hstep := dfsNode_none hsub fuel r visited [] v1 hnd
          (by simpa using hfuel) (by intro x hx; cases hx)
          (hrootsN r (List.mem_cons_self r rest)) List.nodup_nil hvisN
          FL hchar hord
        rcases hstep with ⟨hgrow, hrv1, _, hv1N, ⟨FL1, hchar1, hord1⟩⟩
        rcases ih v1 hrun (fun q hq => hrootsN q (List.mem_cons_of_mem r hq))
          hv1N FL1 hchar1 hord1 with ⟨FL2, hord2, hroots2, hvis2, hFL2N⟩
        refine ⟨FL2, hord2, ?_, fun x hx => hvis2 x (hgrow x hx), hFL2N⟩
        intro q hq
        rcases List.mem_cons.1 hq with rfl | hq2
        · exact hvis2 q hrv1
        · exact hroots2 q hq2

/-- The outer `detectCycle` loop only reports genuine cycles. -/
theorem detectCycleGo_some (hsub : ∀ x d, d ∈ deps x → d ∈ N) (fuel : Nat) :
    ∀ (roots visited : List String) (cyc : List String),
      detectCycleGo deps fuel roots visited = some cyc →
      (∀ r ∈ roots, r ∈ N) →
      2 ≤ cyc.length ∧ cyc.head? = cyc.getLast? ∧
        List.Chain' (fun a b => b ∈ deps a) cyc ∧ ∀ x ∈ cyc, x ∈ N := by
  intro roots
  induction roots with
  | nil =>
    intro visited cyc hrun _
    rw [detectCycleGo] at hrun
    cases hrun
  | cons r rest ih =>
    intro visited cyc hrun hrootsN
    rw [detectCycleGo] at hrun
    by_cases hrv : r ∈ visited
    · rw [if_pos hrv] at hrun
      exact ih visited cyc hrun (fun q hq => hrootsN q (List.mem_cons_of_mem r hq))
    · rw [if_neg hrv] at hrun
      rcases hnd : dfsNode deps fuel r visited [] with ⟨res, v1⟩
      rw [hnd] at hrun
      match res, hrun with
      | some c, hrun =>
        have hceq : c = cyc := Option.some.inj (congrArg id hrun)
        subst hceq
        exact dfsNode_some hsub fuel r visited [] c v1 hnd
          (by simp)
          (by
            intro x hx
            simp only [List.nil_append, List.mem_singleton] at hx
            rw [hx]
            exact hrootsN r (List.mem_cons_self r rest))
      | none, hrun =>
        exact ih v1 cyc hrun (fun q hq => hrootsN q (List.mem_cons_of_mem r hq))

end Dfs

theorem detectCycle_none_noCycle (hvc : validConstruction elements = true)
    (h : detectCycle elements = none) : NoCycle elements := by
  unfold detectCycle at h
  have hsub : ∀ x d, d ∈ depsOf elements x → d ∈ namesOf elements :=
    depsOf_subset_names elements hvc
  have hfuel : (namesOf elements).length + 1 ≤ elements.length + 1 := by
    simp [namesOf]
  have hchar0 : MemChar [] [] [] := by
    intro x
    constructor
    · intro hx; cases hx
    · rintro ⟨hx, _⟩; cases hx
  have hord0 : FinOrd (depsOf elements) [] := by
    refine ⟨List.nodup_nil, ?_, List.Pairwise.nil⟩
    intro x hx; cases hx
  rcases detectCycleGo_none hsub _ hfuel (namesOf elements) [] h
    (fun r hr => hr) (by intro x hx; cases hx) [] hchar0 hord0 with
    ⟨FL2, hord2, hroots2, _, _⟩
  rintro ⟨c, hc⟩
  exact no_cycle_entries hvc hord2.2.2 c hc (fun x hx => hroots2 x (hc.2.2.2 x hx))

theorem detectCycle_some_isCycle (hvc : validConstruction elements = true)
    {cyc : List String} (h : detectCycle elements = some cyc) :
    IsCycleList elements cyc := by
  unfold detectCycle at h
  have hsub : ∀ x d, d ∈ depsOf elements x → d ∈ namesOf elements :=
    depsOf_subset_names elements hvc
  exact detectCycleGo_some hsub _ (namesOf elements) [] cyc h (fun r hr => hr)

theorem resolveExecutionOrder_of_acyclic (hvc : validConstruction elements = true)
    (hdeps : ∀ e ∈ elements, e.dependencies.Nodup)
    (hacy : NoCycle elements) :
    resolveExecutionOrder elements = .ok (topologicalSort elements) ∧
      (topologicalSort elements).Perm (namesOf elements) ∧
      ∀ e ∈ elements, ∀ d ∈ e.dependencies,
        StrictlyBefore (topologicalSort elements) d e.name := by
  have hacyB := noCycle_acyclicB hvc hacy
  have hperm := topologicalSort_perm hvc hdeps hacyB
  refine ⟨?_, hperm, topologicalSort_before hvc hdeps hacyB⟩
  unfold resolveExecutionOrder
  rw [if_pos]
  rw [hperm.length_eq]
  simp [namesOf]

theorem resolveExecutionOrder_of_cycle (hvc : validConstruction elements = true)
    (hcyc : ∃ c, IsCycleList elements c) :
    ∃ cyc, resolveExecutionOrder elements = .error (.cycleFound cyc) ∧
      IsCycleList elements cyc := by
  have hlen := topologicalSort_incomplete hvc hcyc
  unfold resolveExecutionOrder
  rw [if_neg hlen]
  rcases hdc : detectCycle elements with _ | cyc
  · exact absurd hcyc (detectCycle_none_noCycle elements hvc hdc)
  · exact ⟨cyc, rfl, detectCycle_some_isCycle elements hvc hdc⟩

end Lemmas

/-- A three-element acyclic chain used as a concrete witness input. -/
def exElems : List Element :=
  [⟨"alpha", []⟩, ⟨"beta", ["alpha"]⟩, ⟨"gamma", ["beta"]⟩]

/-- An acyclic input with a duplicated dependency entry: its in-degree count
(2) disagrees with its deduplicated adjacency set (1), so the Kahn sort never
reaches it. -/
def dupElems : List Element :=
  [⟨"alpha", []⟩, ⟨"beta", ["alpha", "alpha"]⟩]

/-- A three-cycle: chi depends on psi, psi on omega, omega on chi. -/
def cycElems : List Element :=
  [⟨"chi", ["psi"]⟩, ⟨"psi", ["omega"]⟩, ⟨"omega", ["chi"]⟩]

end Dep

namespace Ctx

/-- Runtime values (`context.ts` handles arbitrary JS values; we model the
JSON-like fragment: strings, integer numbers, booleans, null, plain objects
as insertion-ordered association lists, and arrays).  A JS array is an
object: besides its indexed items it can carry string-keyed own properties
(`dset` attaches one when it walks through an existing array intermediate),
so the model gives arrays a property list too. -/
inductive Value where
  | str (s : String)
  | num (n : Int)
  | bool (b : Bool)
  | null
  | obj (fields : List (String × Value))
  | arr (items : List Value) (props : List (String × Value))

/-- `typeof value === 'object' && value !== null` is the non-primitive test of
`processTemplate`; only objects and arrays are non-primitive (null passes and
is stringified). -/
def Value.isPrimitive : Value → Bool
  | .obj _ => false
  | .arr _ _ => false
  | _ => true

/-- `String(value)` for the primitive values that `processTemplate`
interpolates (objects/arrays are rejected before stringification). -/
def Value.stringify : Value → String
  | .str s => s
  | .num n => toString n
  | .bool b => if b then "true" else "false"
  | .null => "null"
  | .obj _ => ""
  | .arr _ _ => ""

/-- JS truthiness of a stored value: the empty string, zero, `false` and
`null` are falsy; every object and array is truthy. -/
def Value.truthy : Value → Bool
  | .str s => !(s == "")
  | .num n => !(n == 0)
  | .bool b => b
  | .null => false
  | .obj _ => true
  | .arr _ _ => true

/-- `validateCamelCase`: the regex `^[a-z][a-zA-Z0-9]*$`. -/
def validateCamelCase (s : String) : Bool :=
  match s.toList with
  | [] => false
  | c :: rest => c.isLower && rest.all (fun d => d.isAlpha || d.isDigit)

/-- Field lookup in an insertion-ordered JS object. -/
def lookupField (fields : List (String × Value)) (k : String) : Option Value :=
  match fields.find? (fun p => p.1 == k) with
  | some p => some p.2
  | none => none

/-- Field update in an insertion-ordered JS object: an existing key keeps its
position, a new key is appended. -/
def setField : List (String × Value) → String → Value → List (String × Value)
  | [], k, v => [(k, v)]
  | (k0, v0) :: rest, k, v =>
    if k0 == k then (k0, v) :: rest else (k0, v0) :: setField rest k v

/-- The own property names of `Object.prototype`: these are what the `in`
operator and property reads see, through the prototype chain, on every plain
object beyond its own keys. -/
def objectProtoNames : List String :=
  ["constructor", "__defineGetter__", "__defineSetter__", "hasOwnProperty",
   "__lookupGetter__", "__lookupSetter__", "isPrototypeOf",
   "propertyIsEnumerable", "toString", "valueOf", "__proto__",
   "toLocaleString"]

/-- The `in` operator on a plain object: an own key, or an inherited
`Object.prototype` member name. -/
def jsInObj (fields : List (String × Value)) (k : String) : Bool :=
  (lookupField fields k).isSome || objectProtoNames.contains k

/-- The segment names at which `dset` breaks out of its loop without
assigning. -/
def dsetBanned (k : String) : Bool :=
  k == "__proto__" || k == "constructor" || k == "prototype"

/-- `dset(data, key, value)` (dset v3): walk the segments; a `__proto__`,
`constructor` or `prototype` segment breaks out of the loop, keeping the
assignments already made and storing nothing further.  At a non-final
segment an existing value of `typeof 'object'` is kept: descend into a
plain object's fields or an array's string-keyed properties; a kept `null`
makes the next iteration's assignment throw a TypeError (`none`), unless
that next segment is one of the break names.  Any other existing value
(or a missing key) is replaced by a fresh container — a plain object here,
since `set` camelCase-validates every segment before calling `dset` and a
camelCase segment is never numeric, so the array branch of dset's container
ternary is dead in this program. -/
def dsetGo : List (String × Value) → List String → Value → Option (List (String × Value))
  | fields, [], _ => some fields
  | fields, [k], v =>
    if dsetBanned k then some fields
    else some (setField fields k v)
  | fields, k :: k2 :: rest, v =>
    if dsetBanned k then some fields
    else
      match lookupField fields k with
      | some (.obj sub) =>
        (dsetGo sub (k2 :: rest) v).map (fun s2 => setField fields k (.obj s2))
      | some (.arr items props) =>
        (dsetGo props (k2 :: rest) v).map (fun p2 => setField fields k (.arr items p2))
      | some .null => if dsetBanned k2 then some fields else none
      | _ =>
        (dsetGo [] (k2 :: rest) v).map (fun s2 => setField fields k (.obj s2))

/-- One JS property read `val[k]`, restricted to the modelled fragment.
`some (some w)` is an exactly modelled result (an own field of a plain
object, or an own string-keyed property of an array); `some none` is
exactly JS `undefined` (a missing plain-object key whose name is not an
`Object.prototype` member); `none` marks a read that leaves the fragment —
an inherited prototype member, or any property of a truthy string, number,
boolean, or of an array beyond its own string-keyed properties (lengths,
indices, `Array.prototype`/`String.prototype` members…) — and is never
reported as a wrong value. -/
def jsGet : Value → String → Option (Option Value)
  | .obj fields, k =>
    match lookupField fields k with
    | some w => some (some w)
    | none => if objectProtoNames.contains k then none else some none
  | .arr _ props, k =>
    match lookupField props k with
    | some w => some (some w)
    | none => none
  | _, _ => none

/-- `dlv(obj, key)`: `obj = obj ? obj[key[p]] : undefined` over the split
segments.  `some none` is JS `undefined` (in particular every read off a
falsy value, `null` included, is exactly `undefined`); `some (some v)` an
exactly modelled value; `none` a walk that left the modelled fragment. -/
def dlvGo : Option Value → List String → Option (Option Value)
  | cur, [] => some cur
  | cur, k :: rest =>
    match cur with
    | none => dlvGo none rest
    | some v =>
      if v.truthy then
        match jsGet v k with
        | none => none
        | some next => dlvGo next rest
      else dlvGo none rest

/-- `key.split('.')` of JS: split the character list at every dot; an empty
string yields one empty segment, adjacent/trailing dots yield empty
segments. -/
def splitDotChars : List Char → List (List Char)
  | [] => [[]]
  | c :: rest =>
    if c = '.' then [] :: splitDotChars rest
    else
      match splitDotChars rest with
      | [] => [[c]]
      | p :: ps => (c :: p) :: ps

def splitDot (s : String) : List String :=
  (splitDotChars s.toList).map String.mk

/-- The `ContextError` kinds thrown by `RuntimeContext.set`; `setFailed` is
the wrapper around an exception thrown by `dset` itself. -/
inductive CtxErr
  | invalidKey (part : String) (key : String)
  | readonlyConflict (key : String)
  | duplicateKey (key : String)
  | setFailed (key : String)
deriving Repr, DecidableEq

/-- `RuntimeContext`: the nested Variables store, the flat set of assigned
dot-paths, and the read-only key set captured at construction. -/
structure RuntimeCtx where
  data : List (String × Value)
  assignedKeys : List String
  readonlyKeys : List String

/-- `RuntimeContext.set(key, value)`: camelCase-validate every dot segment
(first offender reported), reject read-only collisions and duplicate
assignments, then `dset` the value at the nested dot-path; an exception out
of `dset` (the null-intermediate TypeError) is caught and rethrown as a
ContextError, and the key is recorded as assigned only after a `dset` that
did not throw. -/
def RuntimeCtx.set (ctx : RuntimeCtx) (key : String) (v : Value) : Except CtxErr RuntimeCtx :=
  let parts := splitDot key
  match parts.find? (fun p => !validateCamelCase p) with
  | some p => .error (.invalidKey p key)
  | none =>
    if ctx.readonlyKeys.contains key then .error (.readonlyConflict key)
    else if ctx.assignedKeys.contains key then .error (.duplicateKey key)
    else
      match dsetGo ctx.data parts v with
      | some data2 => .ok { ctx with data := data2,
                                     assignedKeys := ctx.assignedKeys ++ [key] }
      | none => .error (.setFailed key)

/-- `RuntimeContext.get` / `resolve`: `dlv` over the nested store (`some
(some v)` an exactly modelled value, `some none` JS undefined, `none` a
read outside the modelled fragment). -/
def RuntimeCtx.get (ctx : RuntimeCtx) (key : String) : Option (Option Value) :=
  dlvGo (some (.obj ctx.data)) (splitDot key)

/-- `kebabToCamel`: the global regex replace of hyphen-then-lowercase-letter,
uppercasing each lowercase letter that follows a hyphen and dropping the
hyphen. -/
def kebabToCamelGo : List Char → List Char
  | [] => []
  | '-' :: c :: rest =>
    if c.isLower then c.toUpper :: kebabToCamelGo rest
    else '-' :: kebabToCamelGo (c :: rest)
  | c :: rest => c :: kebabToCamelGo rest

def kebabToCamel (s : String) : String :=
  String.mk (kebabToCamelGo s.toList)

mutual

/-- `normalizeKeys`: recursively kebab→camel every object key.  (If two
distinct keys normalize to the same camelCase name, JS keeps one entry; the
model keeps both and lookups see the first — no claim involves that corner.) -/
def normalizeKeysValue : Value → Value
  | .obj fields => .obj (normalizeKeysFields fields)
  | .arr items _ => .arr (normalizeKeysItems items) []
  | v => v

def normalizeKeysFields : List (String × Value) → List (String × Value)
  | [] => []
  | (k, v) :: rest => (kebabToCamel k, normalizeKeysValue v) :: normalizeKeysFields rest

def normalizeKeysItems : List Value → List Value
  | [] => []
  | v :: rest => normalizeKeysValue v :: normalizeKeysItems rest

end

/-- Key joining of `flattie`: `key ? key + '.' + k : k`. -/
def joinKey (key k : String) : String :=
  if key = "" then k else key ++ "." ++ k

mutual

/-- `flattie` with its default options as called by `ReadonlyContext`
(separator ".", nullish values dropped): recurse into objects and arrays,
emit each non-null primitive leaf under its dot-joined key, in iteration
order. -/
def flattieGo : Value → String → List (String × Value)
  | .null, _ => []
  | .str s, key => [(key, .str s)]
  | .num n, key => [(key, .num n)]
  | .bool b, key => [(key, .bool b)]
  | .obj fields, key => flattieFields fields key
  | .arr items _, key => flattieItems items 0 key

def flattieFields : List (String × Value) → String → List (String × Value)
  | [], _ => []
  | (k, v) :: rest, key => flattieGo v (joinKey key k) ++ flattieFields rest key

def flattieItems : List Value → Nat → String → List (String × Value)
  | [], _, _ => []
  | v :: rest, i, key => flattieGo v (joinKey key (toString i)) ++ flattieItems rest (i + 1) key

end

/-- The `flattenPrimitives` filter of `ReadonlyContext`:
`['string','number','boolean'].includes(typeof v) || v === null`. -/
def isFactValue : Value → Bool
  | .str _ => true
  | .num _ => true
  | .bool _ => true
  | .null => true
  | _ => false

/-- `ReadonlyContext`'s construction: normalize keys, drop the `pipeline`
entry, flatten with `flattie`, keep primitive leaves.  The result is the flat
Facts map (key → primitive value). -/
def readonlyData (elementData : List (String × Value)) : List (String × Value) :=
  (flattieFields
      ((normalizeKeysFields elementData).filter (fun p => p.1 != "pipeline")) "")
    |>.filter (fun p => isFactValue p.2)

/-- The `PipelineContext`: the frozen Facts snapshot plus the runtime store,
whose read-only key set is the Facts key set. -/
structure PipelineCtx where
  facts : List (String × Value)
  runtime : RuntimeCtx

def mkPipelineCtx (elementData : List (String × Value)) : PipelineCtx :=
  let facts := readonlyData elementData
  { facts := facts,
    runtime := { data := [], assignedKeys := [], readonlyKeys := facts.map Prod.fst } }

def PipelineCtx.set (ctx : PipelineCtx) (key : String) (v : Value) : Except CtxErr PipelineCtx :=
  match ctx.runtime.set key v with
  | .ok rt => .ok { ctx with runtime := rt }
  | .error e => .error e

def PipelineCtx.get (ctx : PipelineCtx) (key : String) : Option (Option Value) :=
  ctx.runtime.get key

/-- The states a `PipelineContext` instance can reach: freshly constructed
from some element data, or the result of any successful `set` call. -/
inductive Reachable : PipelineCtx → Prop
  | init (elementData : List (String × Value)) : Reachable (mkPipelineCtx elementData)
  | step {c c2 : PipelineCtx} {k : String} {v : Value} :
      Reachable c → c.set k v = .ok c2 → Reachable c2

/-- The whitespace class of the JS regexes (the ASCII part of `\s`; the
templates the engine sees use plain spaces). -/
def isSpaceJS (c : Char) : Bool :=
  c = ' ' || c = '\t' || c = '\n' || c = '\r' || c.toNat = 11 || c.toNat = 12

/-- A character matched by `[\w.]`: word characters and the dot. -/
def wordDotChar (c : Char) : Bool :=
  c.isAlpha || c.isDigit || c = '_' || c = '.'

/-- Attempt to match the template-expression regex at the start of the input:
dollar, double open brace, whitespace, a nonempty run of word/dot characters
(the path), whitespace, double close brace.  Since the character classes are
pairwise disjoint and the interior cannot contain a brace or dollar, JS's
greedy matching is deterministic and maximal-munch is exact.  Returns the
full matched text, the captured path, and the rest of the input. -/
def matchAt (cs : List Char) : Option (List Char × String × List Char) :=
  match cs with
  | '$' :: '{' :: '{' :: t =>
    let ws1 := t.takeWhile isSpaceJS
    let t1 := t.dropWhile isSpaceJS
    let wd := t1.takeWhile wordDotChar
    let t2 := t1.dropWhile wordDotChar
    if wd.isEmpty then none
    else
      let ws2 := t2.takeWhile isSpaceJS
      let t3 := t2.dropWhile isSpaceJS
      match t3 with
      | '}' :: '}' :: rest =>
        some ('$' :: '{' :: '{' :: (ws1 ++ wd ++ ws2 ++ ['}', '}']), String.mk wd, rest)
      | _ => none
  | _ => none

/-- One segment of a scanned template: a literal character, or a matched
template expression with its captured path. -/
inductive Seg where
  | lit (c : Char)
  | expr (full : List Char) (path : String)

/-- The left-to-right scan of `templateRegex.exec`: try to match at every
position, skipping past each match (regex `lastIndex` semantics); characters
between matches are kept as literals.  Fuel is the input length (each step
consumes at least one character). -/
def segScanGo : Nat → List Char → List Seg
  | 0, _ => []
  | _ + 1, [] => []
  | fuel + 1, c :: rest =>
    match matchAt (c :: rest) with
    | some (full, path, rest2) => .expr full path :: segScanGo fuel rest2
    | none => .lit c :: segScanGo fuel rest

def segScan (cs : List Char) : List Seg :=
  segScanGo cs.length cs

/-- The matches of the template, in order. -/
def segExprs (segs : List Seg) : List (List Char × String) :=
  segs.filterMap (fun s => match s with
    | .expr full path => some (full, path)
    | .lit _ => none)

/-- `result.replace(fullMatch, stringValue)` with a string pattern: replace
only the first occurrence; if the pattern does not occur, return the string
unchanged.  (JS also interprets dollar sequences inside the replacement
string; values containing them are outside the model and outside every
claim's inputs.) -/
def replaceFirst : List Char → List Char → List Char → List Char
  | [], _, _ => []
  | c :: rest, pat, rep =>
    if pat.isPrefixOf (c :: rest) then rep ++ (c :: rest).drop pat.length
    else c :: replaceFirst rest pat rep

/-- The `TemplateError` kinds thrown by `processTemplate`. -/
inductive TemplateError
  | conflict (keys : List String)
  | invalidKey (part : String) (path : String)
  | undefinedVar (path : String)
  | nonPrimitive (path : String)
deriving Repr, DecidableEq

/-- `{...readonlyCtx, ...runtimeCtx}` as an insertion-ordered object: the
readonly keys first (their value overridden in place by the runtime value on
a shared key), then the runtime-only keys. -/
def mergedFields (ro rt : List (String × Value)) : List (String × Value) :=
  ro.map (fun p =>
    match lookupField rt p.1 with
    | some v => (p.1, v)
    | none => p)
  ++ rt.filter (fun p => (lookupField ro p.1).isNone)

/-- `path in context` on the merged object: an own key (the flattened Facts
keys are dotted strings, so a dotted path can hit one), or an inherited
`Object.prototype` member name. -/
def mergedHas (ro rt : List (String × Value)) (k : String) : Bool :=
  jsInObj (mergedFields ro rt) k

/-- `resolvePath(context, path)`: the `path in context` branch first — an own
key reads its exact value, while a hit through the prototype chain reads an
inherited member, outside the modelled fragment (`none`) — then the `dlv`
dot-path walk. -/
def resolvePath (ro rt : List (String × Value)) (path : String) : Option (Option Value) :=
  if mergedHas ro rt path then
    match lookupField (mergedFields ro rt) path with
    | some v => some (some v)
    | none => none
  else
    dlvGo (some (.obj (mergedFields ro rt))) (splitDot path)

/-- The conflict pre-check of `processTemplate`:
`Object.keys(runtimeCtx).filter(key => key in readonlyCtx)`, where `in` sees
the readonly object's own keys and the `Object.prototype` member names. -/
def conflictKeys (ro rt : List (String × Value)) : List String :=
  (rt.map Prod.fst).filter (fun k => jsInObj ro k)

/-- `isAssignmentExpression`: the anchored regex — dollar, greater-than,
double open brace, whitespace, nonempty word/dot run, whitespace, double
close brace, end of string. -/
def isAssignmentExpression (s : String) : Bool :=
  match s.toList with
  | '$' :: '>' :: '{' :: '{' :: t =>
    let t1 := t.dropWhile isSpaceJS
    let wd := t1.takeWhile wordDotChar
    let t2 := t1.dropWhile wordDotChar
    (!wd.isEmpty) && (t2.dropWhile isSpaceJS == ['}', '}'])
  | _ => false

/-- The body of `processTemplate`'s while-loop over the matches of the
original template, in match order: validate the path segments, resolve
against the merged context, reject undefined and non-primitive values, and
substitute via first-occurrence replacement in the evolving result.  The
whole loop is `none` when some examined match resolves outside the modelled
fragment (an inherited prototype member, or a walk through a truthy
non-object). -/
def substituteLoop (ro rt : List (String × Value)) :
    List (List Char × String) → List Char → Option (Except TemplateError (List Char))
  | [], result => some (.ok result)
  | (full, path) :: rest, result =>
    match (splitDot path).find? (fun p => !validateCamelCase p) with
    | some p => some (.error (.invalidKey p path))
    | none =>
      match resolvePath ro rt path with
      | none => none
      | some none => some (.error (.undefinedVar path))
      | some (some v) =>
        if v.isPrimitive then
          substituteLoop ro rt rest (replaceFirst result full v.stringify.toList)
        else some (.error (.nonPrimitive path))

/-- `processTemplate(template, readonlyCtx, runtimeCtx)`: assignment
expressions are returned unchanged; otherwise the Variables/Facts key
collision pre-check runs, then every match of the template regex is resolved
and substituted (`none` when a match resolves outside the modelled
fragment). -/
def processTemplate (template : String) (ro rt : List (String × Value)) :
    Option (Except TemplateError String) :=
  if isAssignmentExpression template then some (.ok template)
  else
    let conflicts := conflictKeys ro rt
    if conflicts.isEmpty then
      match substituteLoop ro rt (segExprs (segScan template.toList)) template.toList with
      | some (.ok cs) => some (.ok (String.mk cs))
      | some (.error e) => some (.error e)
      | none => none
    else some (.error (.conflict conflicts))

/-- `PipelineContext.processTemplate`: the readonly snapshot and the
top-level runtime data feed the template engine. -/
def PipelineCtx.processTemplate (ctx : PipelineCtx) (template : String) :
    Option (Except TemplateError String) :=
  Ctx.processTemplate template ctx.facts ctx.runtime.data

/-- The specification-level one-pass positional rendering: each matched
expression is replaced, at its position in the original template, by the
string form of its resolved value. -/
def renderSegs (ro rt : List (String × Value)) : List Seg → List Char
  | [] => []
  | .lit c :: rest => c :: renderSegs ro rt rest
  | .expr full path :: rest =>
    (match resolvePath ro rt path with
      | some (some v) => v.stringify.toList
      | _ => full) ++ renderSegs ro rt rest

/-- The positional reading of the claim "replaces each occurrence with the
string form of the value": scan the template once and substitute in place. -/
def renderTemplate (template : String) (ro rt : List (String × Value)) : String :=
  String.mk (renderSegs ro rt (segScan template.toList))

section CtxLemmas

theorem lookupField_setField_self (fields : List (String × Value)) (k : String) (v : Value) :
    lookupField (setField fields k v) k = some v := by
  induction fields with
  | nil => simp [setField, lookupField, List.find?]
  | cons p rest ih =>
    rcases p with ⟨k0, v0⟩
    by_cases hk : k0 = k
    · subst hk
      simp [setField, lookupField, List.find?]
    · have hbeq : (k0 == k) = false := beq_false_of_ne hk
      simp only [setField, hbeq, Bool.false_eq_true, if_neg, not_false_iff]
      simp only [lookupField, List.find?, hbeq] at ih ⊢
      exact ih

theorem dset_dlv_roundtrip (v : Value) :
    ∀ (parts : List String), parts ≠ [] → (∀ p ∈ parts, dsetBanned p = false) →
      ∀ (fields fields2 : List (String × Value)),
        dsetGo fields parts v = some fields2 →
        ∀ start : Value,
          (start = Value.obj fields2 ∨ ∃ items, start = Value.arr items fields2) →
          dlvGo (some start) parts = some (some v) := by
  intro parts
  induction parts with
  | nil =>
    intro h
    exact absurd rfl h
  | cons k rest ih =>
    intro _ hban fields fields2 hset start hstart
    have hbk : dsetBanned k = false := hban k (List.mem_cons_self k rest)
    match rest with
    | [] =>
      rw [dsetGo, if_neg (by simp [hbk])] at hset
      injection hset with hset
      subst hset
      rcases hstart with rfl | ⟨items, rfl⟩
      · simp [dlvGo, Value.truthy, jsGet, lookupField_setField_self]
      · simp [dlvGo, Value.truthy, jsGet, lookupField_setField_self]
    | r :: rest2 =>
      have hbr : dsetBanned r = false := hban r (by simp)
      have hban2 : ∀ p ∈ r :: rest2, dsetBanned p = false :=
        fun p hp => hban p (List.mem_cons_of_mem k hp)
      rw [dsetGo, if_neg (by simp [hbk])] at hset
      rcases hlf : lookupField fields k with _ | w
      · simp only [hlf] at hset
        rcases hsub : dsetGo [] (r :: rest2) v with _ | sub2
        · rw [hsub] at hset
          cases hset
        · rw [hsub] at hset
          injection hset with hset
          subst hset
          have hstep : dlvGo (some start) (k :: r :: rest2)
              = dlvGo (some (Value.obj sub2)) (r :: rest2) := by
            rcases hstart with rfl | ⟨items, rfl⟩
            · simp [dlvGo, Value.truthy, jsGet, lookupField_setField_self]
            · simp [dlvGo, Value.truthy, jsGet, lookupField_setField_self]
          rw [hstep]
          exact ih (by simp) hban2 [] sub2 hsub _ (Or.inl rfl)
      · match w with
        | .obj sub =>
          simp only [hlf] at hset
          rcases hsub : dsetGo sub (r :: rest2) v with _ | sub2
          · rw [hsub] at hset
            cases hset
          · rw [hsub] at hset
            injection hset with hset
            subst hset
            have hstep : dlvGo (some start) (k :: r :: rest2)
                = dlvGo (some (Value.obj sub2)) (r :: rest2) := by
              rcases hstart with rfl | ⟨items, rfl⟩
              · simp [dlvGo, Value.truthy, jsGet, lookupField_setField_self]
              · simp [dlvGo, Value.truthy, jsGet, lookupField_setField_self]
            rw [hstep]
            exact ih (by simp) hban2 sub sub2 hsub _ (Or.inl rfl)
        | .arr items0 props =>
          simp only [hlf] at hset
          rcases hsub : dsetGo props (r :: rest2) v with _ | props2
          · rw [hsub] at hset
            cases hset
          · rw [hsub] at hset
            injection hset with hset
            subst hset
            have hstep : dlvGo (some start) (k :: r :: rest2)
                = dlvGo (some (Value.arr items0 props2)) (r :: rest2) := by
              rcases hstart with rfl | ⟨items, rfl⟩
              · simp [dlvGo, Value.truthy, jsGet, lookupField_setField_self]
              · simp [dlvGo, Value.truthy, jsGet, lookupField_setField_self]
            rw [hstep]
            exact ih (by simp) hban2 props props2 hsub _ (Or.inr ⟨items0, rfl⟩)
        | .null =>
          simp only [hlf] at hset
          rw [hbr] at hset
          cases hset
        | .str s =>
          simp only [hlf] at hset
          rcases hsub : dsetGo [] (r :: rest2) v with _ | sub2
          · rw [hsub] at hset
            cases hset
          · rw [hsub] at hset
            injection hset with hset
            subst hset
            have hstep : dlvGo (some start) (k :: r :: rest2)
                = dlvGo (some (Value.obj sub2)) (r :: rest2) := by
              rcases hstart with rfl | ⟨items, rfl⟩
              · simp [dlvGo, Value.truthy, jsGet, lookupField_setField_self]
              · simp [dlvGo, Value.truthy, jsGet, lookupField_setField_self]
            rw [hstep]
            exact ih (by simp) hban2 [] sub2 hsub _ (Or.inl rfl)
        | .num n =>
          simp only [hlf] at hset
          rcases hsub : dsetGo [] (r :: rest2) v with _ | sub2
          · rw [hsub] at hset
            cases hset
          · rw [hsub] at hset
            injection hset with hset
            subst hset
            have hstep : dlvGo (some start) (k :: r :: rest2)
                = dlvGo (some (Value.obj sub2)) (r :: rest2) := by
              rcases hstart with rfl | ⟨items, rfl⟩
              · simp [dlvGo, Value.truthy, jsGet, lookupField_setField_self]
              · simp [dlvGo, Value.truthy, jsGet, lookupField_setField_self]
            rw [hstep]
            exact ih (by simp) hban2 [] sub2 hsub _ (Or.inl rfl)
        | .bool b =>
          simp only [hlf] at hset
          rcases hsub : dsetGo [] (r :: rest2) v with _ | sub2
          · rw [hsub] at hset
            cases hset
          · rw [hsub] at hset
            injection hset with hset
            subst hset
            have hstep : dlvGo (some start) (k :: r :: rest2)
                = dlvGo (some (Value.obj sub2)) (r :: rest2) := by
              rcases hstart with rfl | ⟨items, rfl⟩
              · simp [dlvGo, Value.truthy, jsGet, lookupField_setField_self]
              · simp [dlvGo, Value.truthy, jsGet, lookupField_setField_self]
            rw [hstep]
            exact ih (by simp) hban2 [] sub2 hsub _ (Or.inl rfl)

theorem setField_keys (fields : List (String × Value)) (k : String) (v : Value) :
    ∀ k2 ∈ (setField fields k v).map Prod.fst,
      k2 ∈ fields.map Prod.fst ∨ k2 = k := by
  induction fields with
  | nil =>
    intro k2 hk2
    simp [setField] at hk2
    exact Or.inr hk2
  | cons p rest ih =>
    rcases p with ⟨k0, v0⟩
    intro k2 hk2
    by_cases hk : k0 = k
    · subst hk
      simp only [setField, beq_self_eq_true, if_pos] at hk2
      simp only [List.map_cons, List.mem_cons] at hk2 ⊢
      rcases hk2 with h | h
      · exact Or.inl (Or.inl h)
      · exact Or.inl (Or.inr h)
    · have hbeq : (k0 == k) = false := beq_false_of_ne hk
      simp only [setField, hbeq, Bool.false_eq_true, if_neg, not_false_iff] at hk2
      simp only [List.map_cons, List.mem_cons] at hk2 ⊢
      rcases hk2 with h | h
      · exact Or.inl (Or.inl h)
      · rcases ih k2 h with h2 | h2
        · exact Or.inl (Or.inr h2)
        · exact Or.inr h2

theorem dsetGo_keys (v : Value) (parts : List String) (fields data2 : List (String × Value))
    (h : dsetGo fields parts v = some data2) :
    ∀ k2 ∈ data2.map Prod.fst,
      k2 ∈ fields.map Prod.fst ∨ ∃ k ∈ parts.head?, k2 = k := by
  match parts with
  | [] =>
    rw [dsetGo] at h
    injection h with h
    subst h
    intro k2 hk2
    exact Or.inl hk2
  | [k] =>
    rw [dsetGo] at h
    by_cases hb : dsetBanned k = true
    · rw [if_pos hb] at h
      injection h with h
      subst h
      intro k2 hk2
      exact Or.inl hk2
    · rw [if_neg hb] at h
      injection h with h
      subst h
      intro k2 hk2
      rcases setField_keys fields k v k2 hk2 with h1 | h1
      · exact Or.inl h1
      · exact Or.inr ⟨k, rfl, h1⟩
  | k :: r :: rest2 =>
    rw [dsetGo] at h
    by_cases hb : dsetBanned k = true
    · rw [if_pos hb] at h
      injection h with h
      subst h
      intro k2 hk2
      exact Or.inl hk2
    · rw [if_neg hb] at h
      intro k2 hk2
      have hsetf : ∀ x : Value, data2 = setField fields k x →
          k2 ∈ fields.map Prod.fst ∨ ∃ k0 ∈ (k :: r :: rest2).head?, k2 = k0 := by
        intro x hx
        subst hx
        rcases setField_keys fields k x k2 hk2 with h1 | h1
        · exact Or.inl h1
        · exact Or.inr ⟨k, rfl, h1⟩
      rcases hlf : lookupField fields k with _ | w
      · simp only [hlf] at h
        rcases hsub : dsetGo [] (r :: rest2) v with _ | sub2
        · rw [hsub] at h
          cases h
        · rw [hsub] at h
          injection h with h
          exact hsetf _ h.symm
      · match w with
        | .obj sub =>
          simp only [hlf] at h
          rcases hsub : dsetGo sub (r :: rest2) v with _ | sub2
          · rw [hsub] at h
            cases h
          · rw [hsub] at h
            injection h with h
            exact hsetf _ h.symm
        | .arr items0 props =>
          simp only [hlf] at h
          rcases hsub : dsetGo props (r :: rest2) v with _ | props2
          · rw [hsub] at h
            cases h
          · rw [hsub] at h
            injection h with h
            exact hsetf _ h.symm
        | .null =>
          simp only [hlf] at h
          by_cases hbr : dsetBanned r = true
          · rw [if_pos hbr] at h
            injection h with h
            subst h
            exact Or.inl hk2
          · rw [if_neg hbr] at h
            cases h
        | .str s =>
          simp only [hlf] at h
          rcases hsub : dsetGo [] (r :: rest2) v with _ | sub2
          · rw [hsub] at h
            cases h
          · rw [hsub] at h
            injection h with h
            exact hsetf _ h.symm
        | .num n =>
          simp only [hlf] at h
          rcases hsub : dsetGo [] (r :: rest2) v with _ | sub2
          · rw [hsub] at h
            cases h
          · rw [hsub] at h
            injection h with h
            exact hsetf _ h.symm
        | .bool b =>
          simp only [hlf] at h
          rcases hsub : dsetGo [] (r :: rest2) v with _ | sub2
          · rw [hsub] at h
            cases h
          · rw [hsub] at h
            injection h with h
            exact hsetf _ h.symm

theorem find?_invalid_none {parts : List String}
    (h : parts.find? (fun p => !validateCamelCase p) = none) :
    ∀ p ∈ parts, validateCamelCase p = true := by
  intro p hp
  have := List.find?_eq_none.1 h p hp
  simpa using this

theorem set_ok_iff (rt : RuntimeCtx) (key : String) (v : Value) :
    (∃ rt2, rt.set key v = .ok rt2) ↔
      ((splitDot key).all validateCamelCase = true ∧
        key ∉ rt.readonlyKeys ∧ key ∉ rt.assignedKeys ∧
        (dsetGo rt.data (splitDot key) v).isSome = true) := by
  unfold RuntimeCtx.set
  rcases hfind : (splitDot key).find? (fun p => !validateCamelCase p) with _ | p
  · simp only [hfind]
    by_cases hro : rt.readonlyKeys.contains key
    · rw [if_pos hro]
      constructor
      · rintro ⟨rt2, h⟩; cases h
      · rintro ⟨_, hro2, _⟩
        exact absurd (by simpa using hro) hro2
    · rw [if_neg hro]
      by_cases has : rt.assignedKeys.contains key
      · rw [if_pos has]
        constructor
        · rintro ⟨rt2, h⟩; cases h
        · rintro ⟨_, _, has2, _⟩
          exact absurd (by simpa using has) has2
      · rw [if_neg has]
        rcases hds : dsetGo rt.data (splitDot key) v with _ | data2
        · constructor
          · rintro ⟨rt2, h⟩; cases h
          · rintro ⟨_, _, _, hsome⟩
            simp at hsome
        · constructor
          · rintro ⟨rt2, _⟩
            refine ⟨List.all_eq_true.2 (find?_invalid_none hfind), ?_, ?_, rfl⟩
            · intro hmem
              exact hro (by simpa using hmem)
            · intro hmem
              exact has (by simpa using hmem)
          · rintro ⟨_, _, _, _⟩
            exact ⟨_, rfl⟩
  · simp only [hfind]
    have hp := List.find?_some hfind
    have hmem := List.mem_of_find?_eq_some hfind
    have hbad : validateCamelCase p = false := by simpa using hp
    constructor
    · rintro ⟨rt2, h⟩; cases h
    · rintro ⟨hall, _, _⟩
      have := List.all_eq_true.1 hall p hmem
      rw [hbad] at this
      cases this

theorem set_ok_dest {rt rt2 : RuntimeCtx} {key : String} {v : Value}
    (h : rt.set key v = .ok rt2) :
    dsetGo rt.data (splitDot key) v = some rt2.data ∧
      rt2.assignedKeys = rt.assignedKeys ++ [key] ∧
      rt2.readonlyKeys = rt.readonlyKeys ∧
      (∀ p ∈ splitDot key, validateCamelCase p = true) ∧
      key ∉ rt.readonlyKeys ∧ key ∉ rt.assignedKeys := by
  unfold RuntimeCtx.set at h
  rcases hfind : (splitDot key).find? (fun p => !validateCamelCase p) with _ | p
  · simp only [hfind] at h
    by_cases hro : rt.readonlyKeys.contains key
    · rw [if_pos hro] at h; cases h
    · rw [if_neg hro] at h
      by_cases has : rt.assignedKeys.contains key
      · rw [if_pos has] at h; cases h
      · rw [if_neg has] at h
        rcases hds : dsetGo rt.data (splitDot key) v with _ | data2
        · rw [hds] at h; cases h
        · rw [hds] at h
          injection h with h
          subst h
          refine ⟨rfl, rfl, rfl, find?_invalid_none hfind, ?_, ?_⟩
          · intro hmem; exact hro (by simpa using hmem)
          · intro hmem; exact has (by simpa using hmem)
  · simp only [hfind] at h
    cases h

/-- The state invariant of every reachable `PipelineContext`: the runtime
read-only key set is the Facts key set, assigned paths avoid Facts paths, and
every top-level Variables container key is a single camelCase segment (in
particular no stored top-level key literally contains a dot). -/
theorem reachable_invariant {ctx : PipelineCtx} (h : Reachable ctx) :
    ctx.runtime.readonlyKeys = ctx.facts.map Prod.fst ∧
      (∀ k ∈ ctx.runtime.assignedKeys, k ∉ ctx.facts.map Prod.fst) ∧
      (∀ k ∈ ctx.runtime.data.map Prod.fst, validateCamelCase k = true) := by
  induction h with
  | init elementData =>
    refine ⟨rfl, ?_, ?_⟩
    · intro k hk; cases hk
    · intro k hk; cases hk
  | step hreach hset ih =>
    rename_i c c2 key v
    rcases ih with ⟨hro, hassigned, hcamel⟩
    unfold PipelineCtx.set at hset
    rcases hrt : c.runtime.set key v with e | rt2
    · rw [hrt] at hset; cases hset
    · rw [hrt] at hset
      injection hset with hset
      subst hset
      rcases set_ok_dest hrt with ⟨hdata, hkeys, hro2, hparts, hnro, _⟩
      refine ⟨by simpa [hro2] using hro, ?_, ?_⟩
      · intro k hk
        rw [hkeys] at hk
        rcases List.mem_append.1 hk with h1 | h1
        · exact hassigned k h1
        · rw [List.mem_singleton.1 h1]
          rw [← hro]
          exact hnro
      · intro k hk
        rcases dsetGo_keys v (splitDot key) c.runtime.data rt2.data hdata k hk
          with h1 | ⟨k0, hk0, hkeq⟩
        · exact hcamel k h1
        · rcases hsp : splitDot key with _ | ⟨p, ps⟩
          · rw [hsp] at hk0
            cases hk0
          · rw [hsp] at hk0
            have hpk : p = k0 := Option.mem_some_iff.1 hk0
            rw [hkeq, ← hpk]
            exact hparts p (by rw [hsp]; exact List.mem_cons_self p ps)

theorem splitDotChars_ne_nil (cs : List Char) : splitDotChars cs ≠ [] := by
  match cs with
  | [] => simp [splitDotChars]
  | c :: rest =>
    rw [splitDotChars]
    by_cases hc : c = '.'
    · rw [if_pos hc]
      simp
    · rw [if_neg hc]
      rcases h : splitDotChars rest with _ | ⟨p, ps⟩
      · simp
      · simp

theorem splitDot_ne_nil (s : String) : splitDot s ≠ [] := by
  unfold splitDot
  intro h
  exact splitDotChars_ne_nil s.toList (List.map_eq_nil.1 h)

theorem pipeline_set_ok_iff (ctx : PipelineCtx) (key : String) (v : Value) :
    (∃ c2, ctx.set key v = .ok c2) ↔ (∃ rt2, ctx.runtime.set key v = .ok rt2) := by
  unfold PipelineCtx.set
  rcases h : ctx.runtime.set key v with e | rt2
  · constructor
    · rintro ⟨c2, hc⟩; cases hc
    · rintro ⟨rt2, hc⟩; cases hc
  · constructor
    · rintro ⟨c2, _⟩; exact ⟨rt2, rfl⟩
    · rintro ⟨rt2b, _⟩; exact ⟨{ ctx with runtime := rt2 }, rfl⟩

theorem pipeline_set_ok_dest {ctx c2 : PipelineCtx} {key : String} {v : Value}
    (h : ctx.set key v = .ok c2) :
    ctx.runtime.set key v = .ok c2.runtime ∧ c2.facts = ctx.facts := by
  unfold PipelineCtx.set at h
  rcases hrt : ctx.runtime.set key v with e | rt2
  · rw [hrt] at h; cases h
  · rw [hrt] at h
    injection h with h
    subst h
    exact ⟨rfl, rfl⟩

end CtxLemmas

section TemplateLemmas

/-- The concatenation of a scanned segment list. -/
def flattenSegs : List Seg → List Char
  | [] => []
  | .lit c :: rest => c :: flattenSegs rest
  | .expr full _ :: rest => full ++ flattenSegs rest

/-- A match whose path validates and resolves, inside the modelled fragment,
to a primitive value — exactly the matches `processTemplate` substitutes
without throwing. -/
def goodMatch (ro rt : List (String × Value)) (m : List Char × String) : Prop :=
  (splitDot m.2).all validateCamelCase = true ∧
    ∃ v, resolvePath ro rt m.2 = some (some v) ∧ v.isPrimitive = true

theorem matchAt_decomp {cs full : List Char} {path : String} {rest : List Char}
    (h : matchAt cs = some (full, path, rest)) :
    cs = full ++ rest ∧ ∃ t, full = '$' :: t := by
  unfold matchAt at h
  split at h
  case _ t =>
    have e1 : t.takeWhile isSpaceJS ++ t.dropWhile isSpaceJS = t :=
      List.takeWhile_append_dropWhile _ _
    have e2 : (t.dropWhile isSpaceJS).takeWhile wordDotChar
        ++ (t.dropWhile isSpaceJS).dropWhile wordDotChar = t.dropWhile isSpaceJS :=
      List.takeWhile_append_dropWhile _ _
    have e3 : ((t.dropWhile isSpaceJS).dropWhile wordDotChar).takeWhile isSpaceJS
        ++ ((t.dropWhile isSpaceJS).dropWhile wordDotChar).dropWhile isSpaceJS
        = (t.dropWhile isSpaceJS).dropWhile wordDotChar :=
      List.takeWhile_append_dropWhile _ _
    set ws1 := t.takeWhile isSpaceJS with hws1
    set t1 := t.dropWhile isSpaceJS with ht1
    set wd := t1.takeWhile wordDotChar with hwd0
    set t2 := t1.dropWhile wordDotChar with ht2
    set ws2 := t2.takeWhile isSpaceJS with hws2
    set t3 := t2.dropWhile isSpaceJS with ht3
    simp only at h
    split at h
    · cases h
    · split at h
      · rename_i rest2 heq
        injection h with h2
        have hfull : full = '$' :: '{' :: '{' :: (ws1 ++ wd ++ ws2 ++ ['}', '}']) :=
          (congrArg Prod.fst h2).symm
        have hrest : rest = rest2 := (congrArg (fun q => q.2.2) h2).symm
        refine ⟨?_, '{' :: '{' :: (ws1 ++ wd ++ ws2 ++ ['}', '}']), hfull⟩
        rw [hfull, hrest]
        simp only [List.cons_append, List.cons.injEq, true_and, List.append_assoc]
        rw [← e1, ← e2, ← e3, ht3, ht2, heq]
        simp
      · cases h
  case _ => cases h

theorem matchAt_full_ne_nil {cs full : List Char} {path : String} {rest : List Char}
    (h : matchAt cs = some (full, path, rest)) : full ≠ [] := by
  rcases (matchAt_decomp h).2 with ⟨t, rfl⟩
  simp

/-- Scanner well-formedness: with enough fuel the segments reconstruct the
input, and every matched expression's text starts with a dollar sign. -/
theorem segScanGo_wf : ∀ (fuel : Nat) (cs : List Char), cs.length ≤ fuel →
    flattenSegs (segScanGo fuel cs) = cs ∧
      ∀ m ∈ segExprs (segScanGo fuel cs), ∃ t, m.1 = '$' :: t := by
  intro fuel
  induction fuel with
  | zero =>
    intro cs hlen
    have : cs = [] := List.length_eq_zero.1 (Nat.le_zero.1 hlen)
    subst this
    exact ⟨rfl, by intro m hm; cases hm⟩
  | succ fuel ih =>
    intro cs hlen
    match cs with
    | [] => exact ⟨rfl, by intro m hm; cases hm⟩
    | c :: rest =>
      rw [segScanGo]
      rcases hm : matchAt (c :: rest) with _ | ⟨full, path, rest2⟩
      · have hrest := ih rest (by simpa using Nat.le_of_succ_le_succ hlen)
        refine ⟨?_, ?_⟩
        · rw [flattenSegs, hrest.1]
        · intro m hmem
          rw [segExprs] at hmem
          simp only [List.filterMap_cons] at hmem
          exact hrest.2 m hmem
      · rcases matchAt_decomp hm with ⟨hdec, t0, hfull⟩
        have hlen2 : rest2.length ≤ fuel := by
          have : (c :: rest).length = full.length + rest2.length := by
            rw [hdec, List.length_append]
          have hf : 1 ≤ full.length := by
            rw [hfull]
            simp
          simp only [List.length_cons] at this hlen
          omega
        have hrest := ih rest2 hlen2
        refine ⟨?_, ?_⟩
        · rw [flattenSegs, hrest.1, ← hdec]
        · intro m hmem
          rw [segExprs] at hmem
          simp only [List.filterMap_cons] at hmem
          rcases List.mem_cons.1 hmem with rfl | h2
          · exact ⟨t0, hfull⟩
          · exact hrest.2 m h2

theorem subLoop_ok_iff (ro rt : List (String × Value)) :
    ∀ (ms : List (List Char × String)) (result : List Char),
      (∃ out, substituteLoop ro rt ms result = some (.ok out)) ↔
        ∀ m ∈ ms, goodMatch ro rt m := by
  intro ms
  induction ms with
  | nil =>
    intro result
    constructor
    · intro _ m hm
      cases hm
    · intro _
      exact ⟨result, rfl⟩
  | cons m rest ih =>
    intro result
    rcases m with ⟨full, path⟩
    rcases hfind : (splitDot path).find? (fun p => !validateCamelCase p) with _ | p
    · rcases hres : resolvePath ro rt path with _ | w
      · have hred : substituteLoop ro rt ((full, path) :: rest) result = none := by
          simp only [substituteLoop, hfind, hres]
        rw [hred]
        constructor
        · rintro ⟨out, hout⟩
          cases hout
        · intro hall
          rcases (hall _ (List.mem_cons_self _ rest)).2 with ⟨v, hv, _⟩
          rw [hres] at hv
          cases hv
      · rcases w with _ | v
        · have hred : substituteLoop ro rt ((full, path) :: rest) result
              = some (.error (.undefinedVar path)) := by
            simp only [substituteLoop, hfind, hres]
          rw [hred]
          constructor
          · rintro ⟨out, hout⟩
            injection hout with hout
            cases hout
          · intro hall
            rcases (hall _ (List.mem_cons_self _ rest)).2 with ⟨v, hv, _⟩
            rw [hres] at hv
            injection hv with hv
            cases hv
        · by_cases hprim : v.isPrimitive = true
          · have hred : substituteLoop ro rt ((full, path) :: rest) result
                = substituteLoop ro rt rest
                    (replaceFirst result full v.stringify.toList) := by
              simp only [substituteLoop, hfind, hres, hprim, if_true]
            rw [hred]
            constructor
            · intro hex m2 hm2
              rcases List.mem_cons.1 hm2 with rfl | h2
              · exact ⟨List.all_eq_true.2 (find?_invalid_none hfind), v, hres, hprim⟩
              · exact ((ih _).1 hex) m2 h2
            · intro hall
              exact (ih _).2 (fun m2 hm2 => hall m2 (List.mem_cons_of_mem _ hm2))
          · have hprim2 : v.isPrimitive = false := Bool.eq_false_iff.2 hprim
            have hred : substituteLoop ro rt ((full, path) :: rest) result
                = some (.error (.nonPrimitive path)) := by
              simp only [substituteLoop, hfind, hres, hprim2, Bool.false_eq_true,
                if_false]
            rw [hred]
            constructor
            · rintro ⟨out, hout⟩
              injection hout with hout
              cases hout
            · intro hall
              rcases (hall _ (List.mem_cons_self _ rest)).2 with ⟨v2, hv2, hp2⟩
              rw [hres] at hv2
              injection hv2 with hv2
              injection hv2 with hv2
              subst hv2
              exact absurd hp2 hprim
    · have hred : substituteLoop ro rt ((full, path) :: rest) result
          = some (.error (.invalidKey p path)) := by
        simp only [substituteLoop, hfind]
      rw [hred]
      constructor
      · rintro ⟨out, hout⟩
        injection hout with hout
        cases hout
      · intro hall
        have hcamel := (hall _ (List.mem_cons_self _ rest)).1
        have hp := List.find?_some hfind
        have hmem := List.mem_of_find?_eq_some hfind
        have hval := List.all_eq_true.1 hcamel p hmem
        rw [hval] at hp
        cases hp

theorem replaceFirst_skip : ∀ (A pat B rep : List Char), '$' ∉ A →
    (∃ t, pat = '$' :: t) →
    replaceFirst (A ++ (pat ++ B)) pat rep = A ++ (rep ++ B) := by
  intro A
  induction A with
  | nil =>
    rintro pat B rep _ ⟨t, rfl⟩
    simp only [List.nil_append]
    rw [show ('$' :: t) ++ B = '$' :: (t ++ B) from rfl]
    rw [replaceFirst]
    have hpre : ('$' :: t).isPrefixOf ('$' :: (t ++ B)) = true := by
      rw [List.isPrefixOf_iff_prefix]
      exact ⟨B, by simp⟩
    rw [if_pos hpre]
    congr 1
    rw [show '$' :: (t ++ B) = ('$' :: t) ++ B from rfl]
    exact List.drop_left _ _
  | cons a A2 ih =>
    rintro pat B rep hA ⟨t, rfl⟩
    have ha : a ≠ '$' := by
      intro h
      exact hA (h ▸ List.mem_cons_self a A2)
    simp only [List.cons_append]
    rw [replaceFirst]
    have hnpre : ('$' :: t).isPrefixOf (a :: (A2 ++ '$' :: (t ++ B))) = false := by
      rw [Bool.eq_false_iff]
      intro hpre
      rw [List.isPrefixOf_iff_prefix] at hpre
      rcases hpre with ⟨s, hs⟩
      simp only [List.cons_append] at hs
      injection hs with h1 _
      exact ha h1.symm
    rw [if_neg (by rw [hnpre]; simp)]
    have hih := ih ('$' :: t) B rep (fun h => hA (List.mem_cons_of_mem a h)) ⟨t, rfl⟩
    simp only [List.cons_append] at hih
    rw [hih]

theorem subLoop_ne_none (ro rt : List (String × Value)) :
    ∀ (ms : List (List Char × String)) (result : List Char),
      (∀ m ∈ ms, resolvePath ro rt m.2 ≠ none) →
      substituteLoop ro rt ms result ≠ none := by
  intro ms
  induction ms with
  | nil =>
    intro result _ h
    cases h
  | cons m rest ih =>
    intro result hmod
    rcases m with ⟨full, path⟩
    rcases hfind : (splitDot path).find? (fun p => !validateCamelCase p) with _ | p
    · rcases hres : resolvePath ro rt path with _ | w
      · exact absurd hres (hmod _ (List.mem_cons_self _ rest))
      · rcases w with _ | v
        · intro h
          rw [show substituteLoop ro rt ((full, path) :: rest) result
              = some (.error (.undefinedVar path)) from by
            simp only [substituteLoop, hfind, hres]] at h
          cases h
        · by_cases hprim : v.isPrimitive = true
          · intro h
            rw [show substituteLoop ro rt ((full, path) :: rest) result
                = substituteLoop ro rt rest
                    (replaceFirst result full v.stringify.toList) from by
              simp only [substituteLoop, hfind, hres, hprim, if_true]] at h
            exact ih _ (fun m2 hm2 => hmod m2 (List.mem_cons_of_mem _ hm2)) h
          · have hprim2 : v.isPrimitive = false := Bool.eq_false_iff.2 hprim
            intro h
            rw [show substituteLoop ro rt ((full, path) :: rest) result
                = some (.error (.nonPrimitive path)) from by
              simp only [substituteLoop, hfind, hres, hprim2, Bool.false_eq_true,
                if_false]] at h
            cases h
    · intro h
      rw [show substituteLoop ro rt ((full, path) :: rest) result
          = some (.error (.invalidKey p path)) from by
        simp only [substituteLoop, hfind]] at h
      cases h

/-- The conditions under which the substitution loop coincides with the
positional rendering: literal characters are dollar-free, every expression
starts with a dollar (true of every scanned expression), validates, and
resolves to a primitive whose string form is dollar-free. -/
def SegOK (ro rt : List (String × Value)) : Seg → Prop
  | .lit c => c ≠ '$'
  | .expr full path =>
    (∃ t, full = '$' :: t) ∧ (splitDot path).all validateCamelCase = true ∧
      ∃ v, resolvePath ro rt path = some (some v) ∧ v.isPrimitive = true ∧
        '$' ∉ v.stringify.toList

theorem subLoop_render (ro rt : List (String × Value)) :
    ∀ (segs : List Seg) (A : List Char), '$' ∉ A →
      (∀ s ∈ segs, SegOK ro rt s) →
      substituteLoop ro rt (segExprs segs) (A ++ flattenSegs segs)
        = some (.ok (A ++ renderSegs ro rt segs)) := by
  intro segs
  induction segs with
  | nil =>
    intro A _ _
    simp [segExprs, flattenSegs, renderSegs, substituteLoop]
  | cons s rest ih =>
    intro A hA hok
    match s with
    | .lit c =>
      have hc : c ≠ '$' := hok (.lit c) (List.mem_cons_self _ rest)
      have hstep := ih (A ++ [c])
        (by
          intro hmem
          rcases List.mem_append.1 hmem with h1 | h1
          · exact hA h1
          · exact hc (List.mem_singleton.1 h1).symm)
        (fun s2 hs2 => hok s2 (List.mem_cons_of_mem _ hs2))
      have e1 : A ++ flattenSegs (.lit c :: rest) = (A ++ [c]) ++ flattenSegs rest := by
        simp [flattenSegs]
      have e2 : A ++ renderSegs ro rt (.lit c :: rest)
          = (A ++ [c]) ++ renderSegs ro rt rest := by
        simp [renderSegs]
      rw [e1, e2]
      have e3 : segExprs (Seg.lit c :: rest) = segExprs rest := by
        simp [segExprs, List.filterMap_cons]
      rw [e3]
      exact hstep
    | .expr full path =>
      rcases hok (.expr full path) (List.mem_cons_self _ rest) with
        ⟨⟨t0, hfull⟩, hcamel, v, hres, hprim, hvs⟩
      have e3 : segExprs (Seg.expr full path :: rest) = (full, path) :: segExprs rest := by
        simp [segExprs, List.filterMap_cons]
      rw [e3]
      have hfind : (splitDot path).find? (fun p => !validateCamelCase p) = none := by
        apply List.find?_eq_none.2
        intro p hp
        simp [List.all_eq_true.1 hcamel p hp]
      have hred : substituteLoop ro rt ((full, path) :: segExprs rest)
            (A ++ flattenSegs (.expr full path :: rest))
          = substituteLoop ro rt (segExprs rest)
              (replaceFirst (A ++ flattenSegs (.expr full path :: rest)) full
                v.stringify.toList) := by
        simp only [substituteLoop, hfind, hres, hprim, if_true]
      rw [hred]
      have hrepl : replaceFirst (A ++ flattenSegs (.expr full path :: rest)) full
          v.stringify.toList = A ++ (v.stringify.toList ++ flattenSegs rest) := by
        have : A ++ flattenSegs (.expr full path :: rest)
            = A ++ (full ++ flattenSegs rest) := by
          simp [flattenSegs]
        rw [this]
        exact replaceFirst_skip A full (flattenSegs rest) v.stringify.toList hA ⟨t0, hfull⟩
      rw [hrepl]
      have hstep := ih (A ++ v.stringify.toList)
        (by
          intro hmem
          rcases List.mem_append.1 hmem with h1 | h1
          · exact hA h1
          · exact hvs h1)
        (fun s2 hs2 => hok s2 (List.mem_cons_of_mem _ hs2))
      have e4 : A ++ (v.stringify.toList ++ flattenSegs rest)
          = (A ++ v.stringify.toList) ++ flattenSegs rest := by
        simp
      have e5 : A ++ renderSegs ro rt (.expr full path :: rest)
          = (A ++ v.stringify.toList) ++ renderSegs ro rt rest := by
        simp [renderSegs, hres]
      rw [e4, e5]
      exact hstep

end TemplateLemmas

/-- A readonly context whose key "a" holds a template-expression string and
whose key "b" holds the plain string "B". -/
def sequentialRo : List (String × Value) :=
  [("a", .str "$\x7b\x7b b \x7d\x7d"), ("b", .str "B")]

/-- A readonly context with one unrelated fact key. -/
def factsRo : List (String × Value) :=
  [("name", .str "elem")]

/-- Runtime data as produced by a successful set of "ctx.x" to "v". -/
def roundTripRt : List (String × Value) :=
  [("ctx", .obj [("x", .str "v")])]

/-- Element data with a single scalar field, giving the Facts key "a". -/
def exElementData : List (String × Value) :=
  [("a", .str "v")]

/-- The context reached by `set("x", null)` on element data with the single
Facts key "name". -/
def nullCtx : PipelineCtx :=
  { facts := [("name", .str "elem")],
    runtime := { data := [("x", .null)], assignedKeys := ["x"],
                 readonlyKeys := ["name"] } }

/-- The context reached by `set("constructor", 1)` on the same element data:
the call succeeded and recorded the key, but `dset` broke out of its loop
without storing anything. -/
def ctorCtx : PipelineCtx :=
  { facts := [("name", .str "elem")],
    runtime := { data := [], assignedKeys := ["constructor"],
                 readonlyKeys := ["name"] } }

/-- The context reached from `exElementData` by the successful call
`set("a.b", 1)`: the top-level Variables key "a" collides with the Facts key
"a". -/
def exConflictCtx : PipelineCtx :=
  { facts := [("a", .str "v")],
    runtime := { data := [("a", .obj [("b", .num 1)])],
                 assignedKeys := ["a.b"], readonlyKeys := ["a"] } }

end Ctx

/-! ## `src/utils/ansi-strip.ts` — overstrike normalization -/

namespace Ansi

/-- The first pass of `normalizeOverstrikes`: every character is pushed onto
`out`, and a backspace pops the previously pushed character instead
(`out.pop()` on an empty array is a no-op). -/
def bsFold (out : List Char) : List Char → List Char
  | [] => out
  | c :: rest =>
    if c = '\x08' then bsFold out.dropLast rest
    else bsFold (out ++ [c]) rest

/-- `String.split` with a one-character separator: JS yields the (possibly
empty) pieces between separator occurrences, and a lone empty piece for the
empty string. -/
def splitCh (sep : Char) : List Char → List (List Char)
  | [] => [[]]
  | c :: rest =>
    if c = sep then [] :: splitCh sep rest
    else
      match splitCh sep rest with
      | [] => [[c]]
      | p :: ps => (c :: p) :: ps

/-- `Array.join` with a one-character separator. -/
def joinCh (sep : Char) : List (List Char) → List Char
  | [] => []
  | [l] => l
  | l :: ls => l ++ sep :: joinCh sep ls

/-- The per-line carriage-return pass: a line containing no CR is returned
unchanged; otherwise the CR-separated parts are replayed into a column
buffer, each part overwriting the columns `0..len-1` and leaving the
longer remainder of the previous contents in place. -/
def crLine (line : List Char) : List Char :=
  if line.contains '\r' then
    (splitCh '\r' line).foldl (fun buf part => part ++ buf.drop part.length) []
  else line

/-- `normalizeOverstrikes(input)`: backspace pass, then the CR overwrite pass
applied to each newline-separated line independently. -/
def normalizeOverstrikes (input : List Char) : List Char :=
  if input.isEmpty then []
  else joinCh '\n' ((splitCh '\n' (bsFold [] input)).map crLine)

theorem bsFold_snoc_bs : ∀ (xs : List Char) (out : List Char),
    bsFold out (xs ++ ['\x08']) = (bsFold out xs).dropLast := by
  intro xs
  induction xs with
  | nil =>
    intro out
    simp [bsFold]
  | cons c rest ih =>
    intro out
    by_cases hc : c = '\x08'
    · subst hc
      simp only [List.cons_append, bsFold, if_pos rfl]
      exact ih out.dropLast
    · simp only [List.cons_append, bsFold, if_neg hc]
      exact ih (out ++ [c])

theorem splitCh_ne_nil (sep : Char) : ∀ l : List Char, splitCh sep l ≠ [] := by
  intro l
  induction l with
  | nil => simp [splitCh]
  | cons c rest ih =>
    by_cases hc : c = sep
    · simp [splitCh, hc]
    · simp only [splitCh, if_neg hc]
      rcases h : splitCh sep rest with _ | ⟨p, ps⟩
      · simp
      · simp

theorem splitCh_no_sep (sep : Char) : ∀ l : List Char, sep ∉ l → splitCh sep l = [l] := by
  intro l
  induction l with
  | nil => intro _; rfl
  | cons c rest ih =>
    intro hmem
    have hc : c ≠ sep := fun h => hmem (h ▸ List.mem_cons_self c rest)
    have hrest : sep ∉ rest := fun h => hmem (List.mem_cons_of_mem c h)
    simp only [splitCh, if_neg hc, ih hrest]

theorem splitCh_append_sep (sep : Char) : ∀ (a b : List Char), sep ∉ a →
    splitCh sep (a ++ sep :: b) = a :: splitCh sep b := by
  intro a
  induction a with
  | nil =>
    intro b _
    simp [splitCh]
  | cons c a2 ih =>
    intro b hmem
    have hc : c ≠ sep := fun h => hmem (h ▸ List.mem_cons_self c a2)
    have ha2 : sep ∉ a2 := fun h => hmem (List.mem_cons_of_mem c h)
    simp only [List.cons_append, splitCh, if_neg hc]
    rw [show a2.append (sep :: b) = a2 ++ sep :: b from rfl, ih b ha2]

theorem crLine_overwrite (a b : List Char) (ha : '\r' ∉ a) (hb : '\r' ∉ b) :
    crLine (a ++ '\r' :: b) = b ++ a.drop b.length := by
  have hcontains : (a ++ '\r' :: b).contains '\r' = true := by
    simp [List.contains]
  rw [crLine, if_pos hcontains, splitCh_append_sep '\r' a b ha, splitCh_no_sep '\r' b hb]
  simp [List.foldl]

theorem bsFold_id : ∀ (xs out : List Char), '\x08' ∉ xs → bsFold out xs = out ++ xs := by
  intro xs
  induction xs with
  | nil => intro out _; simp [bsFold]
  | cons c rest ih =>
    intro out hmem
    have hc : c ≠ '\x08' := fun h => hmem (h ▸ List.mem_cons_self c rest)
    have hrest : '\x08' ∉ rest := fun h => hmem (List.mem_cons_of_mem c h)
    simp only [bsFold, if_neg hc, ih (out ++ [c]) hrest]
    simp

theorem normalizeOverstrikes_no_bs (input : List Char) (h : '\x08' ∉ input) :
    normalizeOverstrikes input = joinCh '\n' ((splitCh '\n' input).map crLine) := by
  unfold normalizeOverstrikes
  by_cases he : input.isEmpty
  · rw [if_pos he]
    have : input = [] := List.isEmpty_iff.1 he
    subst this
    rfl
  · rw [if_neg he, bsFold_id input [] h]
    rfl

end Ansi

/-! ## `execute-bash-command` — the quiet/output-assign guard -/

namespace Bash

/-- The `execute` parameters relevant to the mutual-exclusion guard: the
optional fields are `none` when the YAML key is omitted. -/
structure ExecuteBashCommandParams where
  command : String
  quiet : Option Bool
  outputAssign : Option String

/-- JS truthiness of `params.quiet`: undefined and `false` are falsy. -/
def truthyQuiet : Option Bool → Bool
  | some b => b
  | none => false

/-- JS truthiness of `params.outputAssign`: undefined and the empty string
are falsy. -/
def truthyAssign : Option String → Bool
  | some s => !s.isEmpty
  | none => false

/-- The observable prefix of `execute`: the guard `params.quiet &&
params.outputAssign` throws before anything else runs; otherwise the first
operation is `context.processTemplate(params.command)` on the untouched
context. -/
def executePrefix (params : ExecuteBashCommandParams) (ctx : Ctx.PipelineCtx) :
    Except String (Option (Except Ctx.TemplateError String)) :=
  if truthyQuiet params.quiet && truthyAssign params.outputAssign then
    .error "Cannot use both quiet and output-assign options together"
  else
    .ok (ctx.processTemplate params.command)

/-- Parameters with `quiet: true` and `output-assign` present but empty. -/
def quietEmptyAssign : ExecuteBashCommandParams :=
  ⟨"echo hi", some true, some ""⟩

end Bash

/-! ## `runWithPty` — interactive prompt automation -/

namespace Pty

/-- One interactive prompt: the text to wait for and the response to send. -/
structure Prompt where
  matchText : String
  response : String

/-- JS `hay.includes(pat)` on strings as character lists. -/
def containsSub (pat : List Char) : List Char → Bool
  | [] => pat.isEmpty
  | c :: rest => pat.isPrefixOf (c :: rest) || containsSub pat rest

/-- The bytes written for a matched prompt: the response, with a newline
appended unless the response already ends with a newline or a carriage
return. -/
def toSend (response : String) : List Char :=
  if response.endsWith "\n" || response.endsWith "\r" then response.toList
  else response.toList ++ ['\n']

/-- The mutable state of `runWithPty` while output arrives — `buffer`,
`visibleBuffer` and `nextPromptIndex` — extended with the ghost trace of PTY
writes. -/
structure PtyState where
  buffer : List Char
  visibleBuffer : List Char
  nextPromptIndex : Nat
  writes : List (List Char)

/-- The `onData` handler: append the chunk to the raw buffer and its stripped
form to the visible buffer, then check only the single prompt at
`nextPromptIndex`; on a match, write its response and advance the index. -/
def onData (strip : List Char → List Char) (prompts : List Prompt)
    (st : PtyState) (data : List Char) : PtyState :=
  let buffer := st.buffer ++ data
  let visible := st.visibleBuffer ++ strip data
  match prompts[st.nextPromptIndex]? with
  | some next =>
    if containsSub next.matchText.toList visible then
      ⟨buffer, visible, st.nextPromptIndex + 1, st.writes ++ [toSend next.response]⟩
    else
      ⟨buffer, visible, st.nextPromptIndex, st.writes⟩
  | none => ⟨buffer, visible, st.nextPromptIndex, st.writes⟩

/-- The data phase of a run: the handler folded over the output chunks from
the initial empty state. -/
def runChunks (strip : List Char → List Char) (prompts : List Prompt)
    (chunks : List (List Char)) : PtyState :=
  chunks.foldl (onData strip prompts) ⟨[], [], 0, []⟩

/-- The in-order-matching invariant: the writes performed so far are exactly
the responses of the first `nextPromptIndex` prompts, in order. -/
def PtyInv (prompts : List Prompt) (st : PtyState) : Prop :=
  st.writes = (prompts.take st.nextPromptIndex).map (fun p => toSend p.response) ∧
  st.nextPromptIndex ≤ prompts.length

theorem onData_inv (strip : List Char → List Char) (prompts : List Prompt)
    (st : PtyState) (data : List Char) (h : PtyInv prompts st) :
    PtyInv prompts (onData strip prompts st data) := by
  rcases h with ⟨hw, hle⟩
  unfold onData
  rcases hp : prompts[st.nextPromptIndex]? with _ | next
  · exact ⟨hw, hle⟩
  · by_cases hm : containsSub next.matchText.toList
        (st.visibleBuffer ++ strip data) = true
    · simp only [hm, if_true]
      have hlt : st.nextPromptIndex < prompts.length :=
        (List.getElem?_eq_some_iff.1 hp).1
      constructor
      · show st.writes ++ [toSend next.response]
          = (prompts.take (st.nextPromptIndex + 1)).map (fun p => toSend p.response)
        rw [List.take_succ, hp, List.map_append, ← hw]
        rfl
      · exact hlt
    · simp only [hm, if_false]
      exact ⟨hw, hle⟩

theorem onData_buffer (strip : List Char → List Char) (prompts : List Prompt)
    (st : PtyState) (data : List Char) :
    (onData strip prompts st data).buffer = st.buffer ++ data ∧
    (onData strip prompts st data).visibleBuffer = st.visibleBuffer ++ strip data := by
  unfold onData
  rcases hp : prompts[st.nextPromptIndex]? with _ | next
  · exact ⟨rfl, rfl⟩
  · by_cases hm : containsSub next.matchText.toList
        (st.visibleBuffer ++ strip data) = true
    · simp only [hm]
      exact ⟨rfl, rfl⟩
    · simp only [hm]
      exact ⟨rfl, rfl⟩

theorem foldl_onData (strip : List Char → List Char) (prompts : List Prompt) :
    ∀ (chunks : List (List Char)) (st : PtyState), PtyInv prompts st →
      PtyInv prompts (chunks.foldl (onData strip prompts) st) ∧
      (chunks.foldl (onData strip prompts) st).buffer = st.buffer ++ chunks.flatten ∧
      (chunks.foldl (onData strip prompts) st).visibleBuffer
        = st.visibleBuffer ++ (chunks.map strip).flatten := by
  intro chunks
  induction chunks with
  | nil =>
    intro st h
    exact ⟨h, by simp, by simp⟩
  | cons d rest ih =>
    intro st h
    have hstep := ih (onData strip prompts st d) (onData_inv strip prompts st d h)
    rcases onData_buffer strip prompts st d with ⟨hb, hv⟩
    refine ⟨hstep.1, ?_, ?_⟩
    · rw [List.foldl_cons, hstep.2.1, hb]
      simp
    · rw [List.foldl_cons, hstep.2.2, hv]
      simp

end Pty

/-! ## `runPromisePool` — the concurrency pool -/

namespace Pool

variable {α : Type}

/-- A worker is at the top of its while-loop (`idle`), running the task it
claimed (`running i`), or has exited the loop (`done`). -/
inductive WStatus where
  | idle
  | running (idx : Nat)
  | done
deriving Repr, DecidableEq

/-- The shared state of `runPromisePool`: the `taskIndex` counter, the
`results` array (a slot is `none` until its task completes), and the status
of each spawned worker. -/
structure PoolState (α : Type) where
  counter : Nat
  results : List (Option α)
  workers : List WStatus

/-- The initial state: counter 0, empty result slots, and
`Math.min(concurrency, tasks.length)` workers at the top of their loops. -/
def initState (tasks : List α) (c : Nat) : PoolState α :=
  ⟨0, List.replicate tasks.length none, List.replicate (min c tasks.length) .idle⟩

/-- The interleaving semantics of a worker iteration, with a task modelled by
the value it resolves to: at `const currentIndex = taskIndex++` an idle
worker atomically reads the counter and increments it, entering `running` on
an in-range claim and breaking out of the loop otherwise; and
`results[currentIndex] = await task()` completes a running worker, storing
the task's value at the claimed index before the worker loops back. -/
inductive PoolStep (tasks : List α) : PoolState α → PoolState α → Prop
  | claim (s : PoolState α) (w : Nat) (h : s.workers[w]? = some .idle) :
      PoolStep tasks s
        ⟨s.counter + 1, s.results,
          s.workers.set w (if s.counter < tasks.length then .running s.counter else .done)⟩
  | finish (s : PoolState α) (w i : Nat) (h : s.workers[w]? = some (.running i))
      (v : α) (hv : tasks[i]? = some v) :
      PoolStep tasks s
        ⟨s.counter, s.results.set i (some v), s.workers.set w .idle⟩

/-- The pool invariant: result slots match the task count, the worker list
keeps its size, every running claim is in range and below the counter, no
index is run by two workers, every claimed in-range index is either still
running somewhere or already stored, and a worker is done only once the
counter has passed the task count. -/
structure PoolInv (tasks : List α) (c : Nat) (s : PoolState α) : Prop where
  res_len : s.results.length = tasks.length
  w_len : s.workers.length = min c tasks.length
  run_lt : ∀ (w i : Nat), s.workers[w]? = some (WStatus.running i) →
      i < tasks.length ∧ i < s.counter
  uniq : ∀ (w1 w2 i : Nat), s.workers[w1]? = some (WStatus.running i) →
      s.workers[w2]? = some (WStatus.running i) → w1 = w2
  covered : ∀ (i : Nat), i < tasks.length → i < s.counter →
      (∃ w : Nat, s.workers[w]? = some (WStatus.running i)) ∨
      (∃ v, tasks[i]? = some v ∧ s.results[i]? = some (some v))
  done_ge : ∀ (w : Nat), s.workers[w]? = some WStatus.done → tasks.length ≤ s.counter

theorem initInv (tasks : List α) (c : Nat) : PoolInv tasks c (initState tasks c) := by
  refine ⟨by simp [initState], by simp [initState], ?_, ?_, ?_, ?_⟩
  · intro w i h
    rw [show (initState tasks c).workers = List.replicate (min c tasks.length) .idle from rfl,
      List.getElem?_replicate] at h
    split at h
    · cases h
    · cases h
  · intro w1 w2 i h1 h2
    rw [show (initState tasks c).workers = List.replicate (min c tasks.length) .idle from rfl,
      List.getElem?_replicate] at h1
    split at h1
    · cases h1
    · cases h1
  · intro i _ hlt
    exact absurd hlt (Nat.not_lt_zero i)
  · intro w h
    rw [show (initState tasks c).workers = List.replicate (min c tasks.length) .idle from rfl,
      List.getElem?_replicate] at h
    split at h
    · cases h
    · cases h

theorem stepInv (tasks : List α) (c : Nat) (s s2 : PoolState α)
    (hstep : PoolStep tasks s s2) (hinv : PoolInv tasks c s) : PoolInv tasks c s2 := by
  rcases hstep with ⟨w, hw⟩ | ⟨w, i, hw, v, hv⟩
  · -- claim step
    have hwlt : w < s.workers.length := (List.getElem?_eq_some_iff.1 hw).1
    by_cases hc : s.counter < tasks.length
    · refine ⟨hinv.res_len, ?_, ?_, ?_, ?_, ?_⟩
      · rw [List.length_set]
        exact hinv.w_len
      · intro w2 i h2
        by_cases hww : w = w2
        · subst hww
          rw [List.getElem?_set_self hwlt, if_pos hc] at h2
          injection h2 with h2
          injection h2 with h2
          subst h2
          exact ⟨hc, Nat.lt_succ_self _⟩
        · rw [List.getElem?_set_ne hww] at h2
          rcases hinv.run_lt w2 i h2 with ⟨h3, h4⟩
          exact ⟨h3, Nat.lt_succ_of_lt h4⟩
      · intro w1 w2 i h1 h2
        by_cases hw1 : w = w1 <;> by_cases hw2 : w = w2
        · rw [← hw1, ← hw2]
        · subst hw1
          rw [List.getElem?_set_self hwlt, if_pos hc] at h1
          rw [List.getElem?_set_ne hw2] at h2
          injection h1 with h1
          injection h1 with h1
          subst h1
          exact absurd (hinv.run_lt w2 s.counter h2).2 (Nat.lt_irrefl _)
        · subst hw2
          rw [List.getElem?_set_self hwlt, if_pos hc] at h2
          rw [List.getElem?_set_ne hw1] at h1
          injection h2 with h2
          injection h2 with h2
          subst h2
          exact absurd (hinv.run_lt w1 s.counter h1).2 (Nat.lt_irrefl _)
        · rw [List.getElem?_set_ne hw1] at h1
          rw [List.getElem?_set_ne hw2] at h2
          exact hinv.uniq w1 w2 i h1 h2
      · intro i hilen hicnt
        by_cases hi : i = s.counter
        · subst hi
          exact .inl ⟨w, by rw [List.getElem?_set_self hwlt, if_pos hc]⟩
        · have hicnt2 : i < s.counter := Nat.lt_of_lt_of_le
            (Nat.lt_of_le_of_ne (Nat.le_of_lt_succ hicnt) hi) (Nat.le_refl _)
          rcases hinv.covered i hilen hicnt2 with ⟨w2, h2⟩ | hdone
          · by_cases hww : w = w2
            · subst hww
              rw [hw] at h2
              cases h2
            · exact .inl ⟨w2, by rw [List.getElem?_set_ne hww]; exact h2⟩
          · exact .inr hdone
      · intro w2 h2
        by_cases hww : w = w2
        · subst hww
          rw [List.getElem?_set_self hwlt, if_pos hc] at h2
          cases h2
        · rw [List.getElem?_set_ne hww] at h2
          exact Nat.le_succ_of_le (hinv.done_ge w2 h2)
    · refine ⟨hinv.res_len, ?_, ?_, ?_, ?_, ?_⟩
      · rw [List.length_set]
        exact hinv.w_len
      · intro w2 i h2
        by_cases hww : w = w2
        · subst hww
          rw [List.getElem?_set_self hwlt, if_neg hc] at h2
          cases h2
        · rw [List.getElem?_set_ne hww] at h2
          rcases hinv.run_lt w2 i h2 with ⟨h3, h4⟩
          exact ⟨h3, Nat.lt_succ_of_lt h4⟩
      · intro w1 w2 i h1 h2
        by_cases hw1 : w = w1
        · subst hw1
          rw [List.getElem?_set_self hwlt, if_neg hc] at h1
          cases h1
        · by_cases hw2 : w = w2
          · subst hw2
            rw [List.getElem?_set_self hwlt, if_neg hc] at h2
            cases h2
          · rw [List.getElem?_set_ne hw1] at h1
            rw [List.getElem?_set_ne hw2] at h2
            exact hinv.uniq w1 w2 i h1 h2
      · intro i hilen hicnt
        have hicnt2 : i < s.counter := Nat.lt_of_lt_of_le hilen (Nat.le_of_not_lt hc)
        rcases hinv.covered i hilen hicnt2 with ⟨w2, h2⟩ | hdone
        · by_cases hww : w = w2
          · subst hww
            rw [hw] at h2
            cases h2
          · exact .inl ⟨w2, by rw [List.getElem?_set_ne hww]; exact h2⟩
        · exact .inr hdone
      · intro w2 _
        exact Nat.le_succ_of_le (Nat.le_of_not_lt hc)
  · -- finish step
    have hwlt : w < s.workers.length := (List.getElem?_eq_some_iff.1 hw).1
    have hilen : i < tasks.length := (hinv.run_lt w i hw).1
    refine ⟨?_, ?_, ?_, ?_, ?_, ?_⟩
    · rw [List.length_set]
      exact hinv.res_len
    · rw [List.length_set]
      exact hinv.w_len
    · intro w2 i2 h2
      by_cases hww : w = w2
      · subst hww
        rw [List.getElem?_set_self hwlt] at h2
        cases h2
      · rw [List.getElem?_set_ne hww] at h2
        exact hinv.run_lt w2 i2 h2
    · intro w1 w2 i2 h1 h2
      by_cases hw1 : w = w1
      · subst hw1
        rw [List.getElem?_set_self hwlt] at h1
        cases h1
      · by_cases hw2 : w = w2
        · subst hw2
          rw [List.getElem?_set_self hwlt] at h2
          cases h2
        · rw [List.getElem?_set_ne hw1] at h1
          rw [List.getElem?_set_ne hw2] at h2
          exact hinv.uniq w1 w2 i2 h1 h2
    · intro i2 hi2len hi2cnt
      by_cases hii : i = i2
      · subst hii
        refine .inr ⟨v, hv, ?_⟩
        rw [List.getElem?_set_self (by rw [hinv.res_len]; exact hilen)]
      · rcases hinv.covered i2 hi2len hi2cnt with ⟨w2, h2⟩ | ⟨v2, hv2, hr2⟩
        · by_cases hww : w = w2
          · subst hww
            rw [hw] at h2
            injection h2 with h2
            injection h2 with h2
            exact absurd h2 hii
          · exact .inl ⟨w2, by rw [List.getElem?_set_ne hww]; exact h2⟩
        · refine .inr ⟨v2, hv2, ?_⟩
          rw [List.getElem?_set_ne hii]
          exact hr2
    · intro w2 h2
      by_cases hww : w = w2
      · subst hww
        rw [List.getElem?_set_self hwlt] at h2
        cases h2
      · rw [List.getElem?_set_ne hww] at h2
        exact hinv.done_ge w2 h2

theorem reachInv (tasks : List α) (c : Nat) (s : PoolState α)
    (hreach : Relation.ReflTransGen (PoolStep tasks) (initState tasks c) s) :
    PoolInv tasks c s := by
  induction hreach with
  | refl => exact initInv tasks c
  | tail _ hstep ih => exact stepInv tasks c _ _ hstep ih

theorem terminal_results (tasks : List α) (c : Nat) (s : PoolState α)
    (hinv : PoolInv tasks c s) (hc : 1 ≤ c) (hne : tasks ≠ [])
    (hterm : ∀ w ∈ s.workers, w = WStatus.done) :
    s.results = tasks.map some := by
  have hnlen : 0 < tasks.length := List.length_pos.2 hne
  have hwlen : 0 < s.workers.length := by
    rw [hinv.w_len]
    exact lt_min hc hnlen
  have h0 : s.workers[0]? = some WStatus.done := by
    rw [List.getElem?_eq_getElem hwlen]
    rw [hterm _ (List.getElem_mem hwlen)]
  have hge : tasks.length ≤ s.counter := hinv.done_ge 0 h0
  apply List.ext_getElem?
  intro n
  by_cases hn : n < tasks.length
  · rcases hinv.covered n hn (Nat.lt_of_lt_of_le hn hge) with ⟨w, hw⟩ | ⟨v, hv, hr⟩
    · have hmem := List.getElem?_mem hw
      have := hterm _ hmem
      cases this
    · rw [hr, List.getElem?_map, hv]
      rfl
  · rw [List.getElem?_eq_none (by rw [hinv.res_len]; exact Nat.le_of_not_lt hn),
      List.getElem?_eq_none (by rw [List.length_map]; exact Nat.le_of_not_lt hn)]

/-- The terminal state of the two-task, single-worker example run. -/
def poolFinal : PoolState Nat :=
  ⟨3, [some 10, some 20], [WStatus.done]⟩

end Pool

namespace Claims

open Dep

/-- C1 (amended): for every element set that passes construction validation,
whose dependency lists are duplicate-free, and whose dependency graph is
acyclic, `resolveExecutionOrder` returns an order containing every loaded
element exactly once (a permutation of the element names, which are in
bijection with the elements), and for every declared dependency edge
dep→dependent, dep appears strictly before the dependent.  The amendment adds
the duplicate-free requirement: with a duplicated dependency entry the
in-degree count disagrees with the deduplicated adjacency set and the sort
spuriously reports a cycle (`claim1_counterexample`). -/
theorem claim1_resolveExecutionOrder_acyclic (elements : List Element)
    (hvc : validConstruction elements = true)
    (hdeps : ∀ e ∈ elements, e.dependencies.Nodup)
    (hacy : NoCycle elements) :
    resolveExecutionOrder elements = .ok (topologicalSort elements) ∧
      (topologicalSort elements).Perm (namesOf elements) ∧
      ∀ e ∈ elements, ∀ d ∈ e.dependencies,
        StrictlyBefore (topologicalSort elements) d e.name :=
  resolveExecutionOrder_of_acyclic elements hvc hdeps hacy

/-- Witness for C1 at the concrete three-element chain `exElems`. -/
theorem claim1_witness :
    (validConstruction exElems = true ∧ (∀ e ∈ exElems, e.dependencies.Nodup) ∧
        NoCycle exElems) ∧
      (resolveExecutionOrder exElems = .ok (topologicalSort exElems) ∧
        (topologicalSort exElems).Perm (namesOf exElems) ∧
        ∀ e ∈ exElems, ∀ d ∈ e.dependencies,
          StrictlyBefore (topologicalSort exElems) d e.name) :=
  have hnc : NoCycle exElems := acyclicB_noCycle (by decide)
  ⟨⟨by decide, by decide, hnc⟩,
    claim1_resolveExecutionOrder_acyclic exElems (by decide) (by decide) hnc⟩

/-- C1 counterexample: `dupElems` passes construction validation and its
dependency graph (the deduplicated edge set) is acyclic, yet
`resolveExecutionOrder` throws a `DependencyError` ("Circular dependency
detected: Unknown cycle detected") instead of returning the order, because
the in-degree of "beta" counts the duplicated entry twice. -/
theorem claim1_counterexample :
    validConstruction dupElems = true ∧ NoCycle dupElems ∧
      resolveExecutionOrder dupElems = .error .unknownCycle :=
  ⟨by decide, acyclicB_noCycle (by decide), by rfl⟩

/-- C2 (amended): for every validated element set containing a dependency
cycle, `resolveExecutionOrder` fails with a `DependencyError` naming a
correct cycle: the reported path starts and ends with the same name, stays
within the loaded element names, and every consecutive pair `(a, b)` is a
real depends-on edge (`b` is among `a`'s declared dependencies) — that is,
the reversal of the data model's dep→dependent edge orientation.  The
original claim asserts the dep→dependent orientation itself, which the
reported path does not follow (`claim2_counterexample`). -/
theorem claim2_cycle_reported (elements : List Element)
    (hvc : validConstruction elements = true)
    (hcyc : ∃ c, IsCycleList elements c) :
    ∃ cyc, resolveExecutionOrder elements = .error (.cycleFound cyc) ∧
      IsCycleList elements cyc :=
  resolveExecutionOrder_of_cycle elements hvc hcyc

/-- Witness for C2 at the concrete three-cycle `cycElems`. -/
theorem claim2_witness :
    (validConstruction cycElems = true ∧
        IsCycleList cycElems ["chi", "psi", "omega", "chi"]) ∧
      ∃ cyc, resolveExecutionOrder cycElems = .error (.cycleFound cyc) ∧
        IsCycleList cycElems cyc :=
  have hcyc : IsCycleList cycElems ["chi", "psi", "omega", "chi"] :=
    ⟨by decide, rfl,
      List.Chain.cons (by decide) (List.Chain.cons (by decide)
        (List.Chain.cons (by decide) List.Chain.nil)),
      by decide⟩
  ⟨⟨by decide, hcyc⟩,
    claim2_cycle_reported cycElems (by decide) ⟨_, hcyc⟩⟩

/-- C2 counterexample: on the three-cycle `cycElems` the reported path is
`chi → psi → omega → chi`, and its consecutive pairs are not dep→dependent
edges of the graph (e.g. "psi" does not depend on "chi"); the path follows
the depends-on direction instead. -/
theorem claim2_counterexample :
    resolveExecutionOrder cycElems
        = .error (.cycleFound ["chi", "psi", "omega", "chi"]) ∧
      ¬ List.Chain' (fun a b => a ∈ depsOf cycElems b)
          ["chi", "psi", "omega", "chi"] := by
  refine ⟨by rfl, ?_⟩
  intro h
  have h1 := (List.chain'_cons.1 h).1
  revert h1
  decide

open Ctx

/-- C3 (amended): on every reachable `PipelineContext` instance, `set(path,
value)` succeeds exactly when every dot-separated segment of the path is
camelCase, the path has not already been written on that instance, the path
does not collide with a Facts path, and the `dset` walk does not run into a
stored `null` intermediate (dset v3 keeps intermediates of JS typeof
`object`, `null` included, so the next assignment throws a TypeError that
`set` catches and rethrows as a ContextError); any violation raises a
`ContextError` (in particular the second of two `set` calls with the same
path fails with the duplicate-assignment error); and a successful write
whose path contains no `constructor`/`prototype`/`__proto__` segment (at
which `dset` breaks out of its loop, storing nothing) stores the value at
the nested dot-path — it is resolvable by dot-path traversal and every
top-level container key is a single camelCase segment, never a literal key
containing a dot. -/
theorem claim3_set_contract (ctx : PipelineCtx) (hreach : Reachable ctx)
    (key : String) (v : Value) :
    ((∃ c2, ctx.set key v = .ok c2) ↔
      ((splitDot key).all validateCamelCase = true ∧
        key ∉ ctx.facts.map Prod.fst ∧ key ∉ ctx.runtime.assignedKeys ∧
        (dsetGo ctx.runtime.data (splitDot key) v).isSome = true)) ∧
    ((∃ c2, ctx.set key v = .ok c2) ∨ (∃ e, ctx.set key v = .error e)) ∧
    (∀ c2, ctx.set key v = .ok c2 →
      ((∀ p ∈ splitDot key, dsetBanned p = false) → c2.get key = some (some v)) ∧
      (∀ k ∈ c2.runtime.data.map Prod.fst, validateCamelCase k = true) ∧
      ∀ v2, c2.set key v2 = .error (.duplicateKey key)) := by
  have hinv := reachable_invariant hreach
  refine ⟨?_, ?_, ?_⟩
  · rw [pipeline_set_ok_iff, set_ok_iff]
    rw [hinv.1]
  · rcases h : ctx.set key v with e | c2
    · exact Or.inr ⟨e, rfl⟩
    · exact Or.inl ⟨c2, rfl⟩
  · intro c2 h
    have hpd := pipeline_set_ok_dest h
    have hdst := set_ok_dest hpd.1
    have hreach2 : Reachable c2 := Reachable.step hreach h
    refine ⟨?_, (reachable_invariant hreach2).2.2, ?_⟩
    · intro hbanfree
      unfold PipelineCtx.get RuntimeCtx.get
      exact dset_dlv_roundtrip v (splitDot key) (splitDot_ne_nil key) hbanfree
        ctx.runtime.data c2.runtime.data hdst.1 _ (Or.inl rfl)
    · intro v2
      have hrt2 : c2.runtime.set key v2 = .error (.duplicateKey key) := by
        unfold RuntimeCtx.set
        have hfind : (splitDot key).find? (fun p => !validateCamelCase p) = none := by
          apply List.find?_eq_none.2
          intro p hp
          simp [hdst.2.2.2.1 p hp]
        simp only [hfind]
        have hro : c2.runtime.readonlyKeys.contains key = false := by
          rw [hdst.2.2.1]
          simpa using hdst.2.2.2.2.1
        have has : c2.runtime.assignedKeys.contains key = true := by
          rw [hdst.2.1]
          simp
        rw [hro, has]
        simp
      unfold PipelineCtx.set
      rw [hrt2]

/-- Witness for C3: a freshly constructed context over element data with the
single Facts entry "name", at the path "ctx.x". -/
theorem claim3_witness :
    Reachable (mkPipelineCtx [("name", .str "elem")]) ∧
      (((∃ c2, (mkPipelineCtx [("name", .str "elem")]).set "ctx.x" (.str "v") = .ok c2) ↔
        ((splitDot "ctx.x").all validateCamelCase = true ∧
          "ctx.x" ∉ (mkPipelineCtx [("name", .str "elem")]).facts.map Prod.fst ∧
          "ctx.x" ∉ (mkPipelineCtx [("name", .str "elem")]).runtime.assignedKeys ∧
          (dsetGo (mkPipelineCtx [("name", .str "elem")]).runtime.data
            (splitDot "ctx.x") (.str "v")).isSome = true)) ∧
      ((∃ c2, (mkPipelineCtx [("name", .str "elem")]).set "ctx.x" (.str "v") = .ok c2) ∨
        (∃ e, (mkPipelineCtx [("name", .str "elem")]).set "ctx.x" (.str "v") = .error e)) ∧
      (∀ c2, (mkPipelineCtx [("name", .str "elem")]).set "ctx.x" (.str "v") = .ok c2 →
        ((∀ p ∈ splitDot "ctx.x", dsetBanned p = false) →
          c2.get "ctx.x" = some (some (.str "v"))) ∧
        (∀ k ∈ c2.runtime.data.map Prod.fst, validateCamelCase k = true) ∧
        ∀ v2, c2.set "ctx.x" v2 = .error (.duplicateKey "ctx.x"))) :=
  ⟨Reachable.init [("name", .str "elem")],
    claim3_set_contract (mkPipelineCtx [("name", .str "elem")])
      (Reachable.init [("name", .str "elem")]) "ctx.x" (.str "v")⟩

/-- C3 counterexample: after `set("x", null)` succeeds, the call
`set("x.y", 1)` has camelCase segments, is unassigned and collides with no
Facts path, yet fails — dset keeps the null intermediate and the write
throws, surfacing as a ContextError; and `set("constructor", 1)` succeeds
while storing nothing at all. -/
theorem claim3_counterexample :
    (mkPipelineCtx [("name", .str "elem")]).set "x" .null = .ok nullCtx ∧
    (splitDot "x.y").all validateCamelCase = true ∧
    "x.y" ∉ nullCtx.facts.map Prod.fst ∧
    "x.y" ∉ nullCtx.runtime.assignedKeys ∧
    nullCtx.set "x.y" (.num 1) = .error (.setFailed "x.y") ∧
    (mkPipelineCtx [("name", .str "elem")]).set "constructor" (.num 1) = .ok ctorCtx ∧
    ctorCtx.runtime.data = [] :=
  ⟨rfl, by decide, by decide, by decide, rfl, rfl, rfl⟩

/-- C6 (amended): on every reachable `PipelineContext` state the *assigned
Variables dot-paths* are disjoint from the Facts paths (the `set` guard), and
`processTemplate` re-checks collisions before merging — a runtime top-level
key for which `key in readonlyCtx` holds, an own Facts key or an inherited
`Object.prototype` member name — failing with a `TemplateError` naming the
colliding keys rather than silently shadowing.  The original claim's
stronger invariant — that the checked key sets are disjoint on every
reachable state, making the re-check unreachable — is false: a Facts path
equal to the first segment of an assigned variable path triggers it
(`claim6_counterexample`). -/
theorem claim6_disjointness (ctx : PipelineCtx) (hreach : Reachable ctx) :
    (∀ k ∈ ctx.runtime.assignedKeys, k ∉ ctx.facts.map Prod.fst) ∧
    (∀ t, isAssignmentExpression t = false →
      conflictKeys ctx.facts ctx.runtime.data ≠ [] →
      processTemplate t ctx.facts ctx.runtime.data
        = some (.error (.conflict (conflictKeys ctx.facts ctx.runtime.data)))) := by
  refine ⟨(reachable_invariant hreach).2.1, ?_⟩
  intro t hna hconf
  unfold processTemplate
  rw [if_neg (by simp [hna])]
  have hemp : (conflictKeys ctx.facts ctx.runtime.data).isEmpty = false := by
    rcases h : conflictKeys ctx.facts ctx.runtime.data with _ | ⟨a, b⟩
    · exact absurd h hconf
    · rfl
  simp only [hemp]
  simp

/-- Witness for C6 at the reachable conflicting context `exConflictCtx`. -/
theorem claim6_witness :
    Reachable exConflictCtx ∧
      ((∀ k ∈ exConflictCtx.runtime.assignedKeys,
          k ∉ exConflictCtx.facts.map Prod.fst) ∧
        (∀ t, isAssignmentExpression t = false →
          conflictKeys exConflictCtx.facts exConflictCtx.runtime.data ≠ [] →
          processTemplate t exConflictCtx.facts exConflictCtx.runtime.data
            = some (.error (.conflict
                (conflictKeys exConflictCtx.facts exConflictCtx.runtime.data))))) :=
  have hreach : Reachable exConflictCtx :=
    Reachable.step (Reachable.init exElementData)
      (show (mkPipelineCtx exElementData).set "a.b" (.num 1) = .ok exConflictCtx from rfl)
  ⟨hreach, claim6_disjointness exConflictCtx hreach⟩

/-- C6 counterexample: from element data with the Facts key "a", the call
`set("a.b", 1)` succeeds and reaches a state whose top-level Variables key
set is not disjoint from the Facts key set — the merge-time re-check, which
the claim calls unreachable, fires and fails every subsequent template
operation with a `TemplateError`. -/
theorem claim6_counterexample :
    (mkPipelineCtx exElementData).set "a.b" (.num 1) = .ok exConflictCtx ∧
      Reachable exConflictCtx ∧
      conflictKeys exConflictCtx.facts exConflictCtx.runtime.data = ["a"] ∧
      processTemplate "out" exConflictCtx.facts exConflictCtx.runtime.data
        = some (.error (.conflict ["a"])) :=
  have hset : (mkPipelineCtx exElementData).set "a.b" (.num 1) = .ok exConflictCtx := rfl
  ⟨hset, Reachable.step (Reachable.init exElementData) hset, rfl, rfl⟩

/-- C4 (amended): with the assignment-expression and key-collision guards
passed, and for templates every one of whose matches resolves within the
modelled fragment (reads of own data only — a path that reads an inherited
`Object.prototype` member such as `toString`, or walks a property of a
truthy non-object, resolves to a prototype value in JS and is outside the
model's scope, which reports `none` rather than a wrong value),
`processTemplate` succeeds exactly when every matched template expression
has camelCase-valid path segments and resolves to a primitive value, and
otherwise fails with a `TemplateError` (undefined or non-primitive); the
result is the positional rendering that replaces each matched occurrence
with the string form of its resolved value provided no literal character
and no substituted value's string form is a dollar sign (the JS
first-occurrence `String.replace` can otherwise retarget an earlier
identical occurrence, as the counterexample shows). -/
theorem claim4_template_substitution (template : String) (ro rt : List (String × Value))
    (hna : isAssignmentExpression template = false)
    (hcf : conflictKeys ro rt = [])
    (hmod : ∀ m ∈ segExprs (segScan template.toList), resolvePath ro rt m.2 ≠ none) :
    ((∃ s, processTemplate template ro rt = some (.ok s)) ↔
      ∀ m ∈ segExprs (segScan template.toList), goodMatch ro rt m) ∧
    ((¬ ∀ m ∈ segExprs (segScan template.toList), goodMatch ro rt m) →
      ∃ e, processTemplate template ro rt = some (.error e)) ∧
    ((∀ s ∈ segScan template.toList, SegOK ro rt s) →
      processTemplate template ro rt = some (.ok (renderTemplate template ro rt))) := by
  have hflat : flattenSegs (segScan template.toList) = template.toList :=
    (segScanGo_wf template.toList.length template.toList le_rfl).1
  have hred : ∀ r : Option (Except TemplateError (List Char)),
      substituteLoop ro rt (segExprs (segScan template.toList)) template.toList = r →
      processTemplate template ro rt
        = match r with
          | some (.ok cs) => some (.ok (String.mk cs))
          | some (.error e) => some (.error e)
          | none => none := by
    intro r hr
    simp only [processTemplate, hna, Bool.false_eq_true, if_false, hcf,
      List.isEmpty_nil, if_true, hr]
  have hiff : (∃ s, processTemplate template ro rt = some (.ok s)) ↔
      ∀ m ∈ segExprs (segScan template.toList), goodMatch ro rt m := by
    constructor
    · rintro ⟨s, hs⟩
      rcases hsub : substituteLoop ro rt (segExprs (segScan template.toList))
          template.toList with _ | r
      · rw [hred _ hsub] at hs
        cases hs
      · rcases r with e | cs
        · rw [hred _ hsub] at hs
          injection hs with hs
          cases hs
        · exact (subLoop_ok_iff ro rt _ _).1 ⟨cs, hsub⟩
    · intro hall
      rcases (subLoop_ok_iff ro rt (segExprs (segScan template.toList))
          template.toList).2 hall with ⟨out, hout⟩
      exact ⟨String.mk out, by rw [hred _ hout]⟩
  refine ⟨hiff, ?_, ?_⟩
  · intro hbad
    rcases hsub : substituteLoop ro rt (segExprs (segScan template.toList))
        template.toList with _ | r
    · exact absurd hsub (subLoop_ne_none ro rt _ _ hmod)
    · rcases r with e | cs
      · exact ⟨e, by rw [hred _ hsub]⟩
      · exact absurd (hiff.1 ⟨String.mk cs, by rw [hred _ hsub]⟩) hbad
  · intro hsegok
    have hrender := subLoop_render ro rt (segScan template.toList) []
      (by intro h; cases h) hsegok
    simp only [List.nil_append] at hrender
    rw [hflat] at hrender
    rw [hred _ hrender]
    rfl

/-- Witness for C4: after `set("ctx.x", "v")`, processing the template
consisting of the single expression for ctx.x yields the positional rendering,
which is the string "v". -/
theorem claim4_witness :
    isAssignmentExpression "$\x7b\x7b ctx.x \x7d\x7d" = false ∧
    conflictKeys factsRo roundTripRt = [] ∧
    processTemplate "$\x7b\x7b ctx.x \x7d\x7d" factsRo roundTripRt
      = some (.ok (renderTemplate "$\x7b\x7b ctx.x \x7d\x7d" factsRo roundTripRt)) ∧
    renderTemplate "$\x7b\x7b ctx.x \x7d\x7d" factsRo roundTripRt = "v" :=
  ⟨rfl, rfl,
    (claim4_template_substitution "$\x7b\x7b ctx.x \x7d\x7d" factsRo roundTripRt rfl rfl
      (by
        intro m hm
        rw [show segExprs (segScan (String.toList "$\x7b\x7b ctx.x \x7d\x7d"))
            = [(String.toList "$\x7b\x7b ctx.x \x7d\x7d", "ctx.x")] from rfl] at hm
        rcases List.mem_singleton.1 hm with rfl
        intro hcon
        exact Option.noConfusion hcon)).2.2
      (by
        intro s hs
        have hseg : segScan (String.toList "$\x7b\x7b ctx.x \x7d\x7d")
            = [Seg.expr (String.toList "$\x7b\x7b ctx.x \x7d\x7d") "ctx.x"] := rfl
        rw [hseg] at hs
        rcases List.mem_singleton.1 hs with rfl
        exact ⟨⟨String.toList "\x7b\x7b ctx.x \x7d\x7d", rfl⟩, rfl,
          .str "v", rfl, rfl, by decide⟩),
    rfl⟩

/-- Counterexample for C4 as stated: with Facts a = "$\x7b\x7b b \x7d\x7d" and
b = "B", processing "$\x7b\x7b a \x7d\x7dx$\x7b\x7b b \x7d\x7d" substitutes
the value of a and then retargets the substitution for b onto that freshly
inserted text, producing "Bx$\x7b\x7b b \x7d\x7d" instead of the
per-occurrence rendering "$\x7b\x7b b \x7d\x7dxB". -/
theorem claim4_counterexample :
    processTemplate "$\x7b\x7b a \x7d\x7dx$\x7b\x7b b \x7d\x7d" sequentialRo []
      = some (.ok "Bx$\x7b\x7b b \x7d\x7d") ∧
    renderTemplate "$\x7b\x7b a \x7d\x7dx$\x7b\x7b b \x7d\x7d" sequentialRo []
      = "$\x7b\x7b b \x7d\x7dxB" ∧
    ¬ processTemplate "$\x7b\x7b a \x7d\x7dx$\x7b\x7b b \x7d\x7d" sequentialRo []
      = some (.ok (renderTemplate "$\x7b\x7b a \x7d\x7dx$\x7b\x7b b \x7d\x7d"
          sequentialRo [])) := by
  refine ⟨rfl, rfl, fun h => ?_⟩
  have h2 : (some (Except.ok "Bx$\x7b\x7b b \x7d\x7d")
        : Option (Except TemplateError String))
      = some (Except.ok "$\x7b\x7b b \x7d\x7dxB") := h
  injection h2 with h2
  injection h2 with h3
  exact absurd h3 (by decide)

/-- C5: a string that is exactly an assignment expression is returned
unchanged by `processTemplate`, whatever the readonly and runtime contexts
contain. -/
theorem claim5_assignment_passthrough (t : String) (ro rt : List (String × Value))
    (h : isAssignmentExpression t = true) :
    processTemplate t ro rt = some (.ok t) := by
  simp [processTemplate, h]

/-- Witness for C5: the assignment expression for ctx.out passes through
unchanged over nonempty contexts. -/
theorem claim5_witness :
    isAssignmentExpression "$>\x7b\x7b ctx.out \x7d\x7d" = true ∧
    processTemplate "$>\x7b\x7b ctx.out \x7d\x7d" sequentialRo roundTripRt
      = some (.ok "$>\x7b\x7b ctx.out \x7d\x7d") :=
  ⟨rfl, claim5_assignment_passthrough "$>\x7b\x7b ctx.out \x7d\x7d" sequentialRo roundTripRt rfl⟩

/-- C7: over every stream of output chunks, every prompt list and every
strip function, prompts are consumed strictly in list order: the writes
performed are exactly the responses of the first `nextPromptIndex` prompts,
in order, each sent exactly once with a newline appended unless the response
already ends in a newline or carriage return; the index never exceeds the
prompt count; and the raw and visible buffers accumulate the chunks and
their stripped forms. -/
theorem claim7_pty_prompts (strip : List Char → List Char) (prompts : List Pty.Prompt)
    (chunks : List (List Char)) :
    (Pty.runChunks strip prompts chunks).writes
      = (prompts.take (Pty.runChunks strip prompts chunks).nextPromptIndex).map
          (fun p => Pty.toSend p.response) ∧
    (Pty.runChunks strip prompts chunks).nextPromptIndex ≤ prompts.length ∧
    (Pty.runChunks strip prompts chunks).buffer = chunks.flatten ∧
    (Pty.runChunks strip prompts chunks).visibleBuffer = (chunks.map strip).flatten := by
  have h := Pty.foldl_onData strip prompts chunks ⟨[], [], 0, []⟩ ⟨rfl, Nat.zero_le _⟩
  exact ⟨h.1.1, h.1.2, by simpa using h.2.1, by simpa using h.2.2⟩

/-- C8: on every state reachable by the interleaving semantics of
`runPromisePool` with a positive concurrency limit, no task index is run by
two workers, the results array keeps one slot per task, and when every
worker has exited the loop the array holds, at every index, the value of the
task with that index. -/
theorem claim8_promise_pool {α : Type} (tasks : List α) (c : Nat) (s : Pool.PoolState α)
    (hc : 1 ≤ c)
    (hreach : Relation.ReflTransGen (Pool.PoolStep tasks) (Pool.initState tasks c) s) :
    (∀ w1 w2 i : Nat, s.workers[w1]? = some (Pool.WStatus.running i) →
        s.workers[w2]? = some (Pool.WStatus.running i) → w1 = w2) ∧
    s.results.length = tasks.length ∧
    ((∀ w ∈ s.workers, w = Pool.WStatus.done) → tasks ≠ [] →
      s.results = tasks.map some) :=
  have hinv := Pool.reachInv tasks c s hreach
  ⟨hinv.uniq, hinv.res_len,
    fun hterm hne => Pool.terminal_results tasks c s hinv hc hne hterm⟩

/-- Witness for C8: a single worker processes the two tasks 10 and 20 in an
explicit five-step run, and the final results array stores each value at its
task's index. -/
theorem claim8_witness :
    Pool.poolFinal.results = List.map some [10, 20] :=
  (claim8_promise_pool [10, 20] 1 Pool.poolFinal (by decide)
      (Relation.ReflTransGen.tail
        (Relation.ReflTransGen.tail
          (Relation.ReflTransGen.tail
            (Relation.ReflTransGen.tail
              (Relation.ReflTransGen.tail Relation.ReflTransGen.refl
                (Pool.PoolStep.claim (Pool.initState [10, 20] 1) 0 (by decide)))
              (Pool.PoolStep.finish ⟨1, [none, none], [Pool.WStatus.running 0]⟩ 0 0
                (by decide) 10 (by decide)))
            (Pool.PoolStep.claim ⟨1, [some 10, none], [Pool.WStatus.idle]⟩ 0 (by decide)))
          (Pool.PoolStep.finish ⟨2, [some 10, none], [Pool.WStatus.running 1]⟩ 0 1
            (by decide) 20 (by decide)))
        (Pool.PoolStep.claim ⟨2, [some 10, some 20], [Pool.WStatus.idle]⟩ 0
          (by decide)))).2.2
    (by decide) (by decide)

/-- C9: `normalizeOverstrikes` simulates a backspace by deleting the
previously accumulated character, handles carriage returns independently per
newline-separated line, and a carriage return not followed by newline makes
the later text overwrite the earlier characters of the line column by
column, the earlier characters beyond the later text's length remaining. -/
theorem claim9_overstrikes :
    (∀ xs : List Char, Ansi.bsFold [] (xs ++ ['\x08']) = (Ansi.bsFold [] xs).dropLast) ∧
    (∀ a b : List Char, '\r' ∉ a → '\r' ∉ b →
      Ansi.crLine (a ++ '\r' :: b) = b ++ a.drop b.length) ∧
    (∀ input : List Char, '\x08' ∉ input →
      Ansi.normalizeOverstrikes input
        = Ansi.joinCh '\n' ((Ansi.splitCh '\n' input).map Ansi.crLine)) :=
  ⟨fun xs => Ansi.bsFold_snoc_bs xs [],
   Ansi.crLine_overwrite,
   Ansi.normalizeOverstrikes_no_bs⟩

/-- Witness for C9: a trailing backspace deletes the letter b, the text X
after a carriage return overwrites the first column of abc leaving bc, and a
backspace-free input is processed line by line. -/
theorem claim9_witness :
    Ansi.bsFold [] (['a', 'b'] ++ ['\x08']) = (Ansi.bsFold [] ['a', 'b']).dropLast ∧
    Ansi.crLine (['a', 'b', 'c'] ++ '\r' :: ['X']) = ['X'] ++ ['a', 'b', 'c'].drop 1 ∧
    Ansi.normalizeOverstrikes ['a', '\n', 'b']
      = Ansi.joinCh '\n' ((Ansi.splitCh '\n' ['a', '\n', 'b']).map Ansi.crLine) :=
  ⟨claim9_overstrikes.1 ['a', 'b'],
   claim9_overstrikes.2.1 ['a', 'b', 'c'] ['X'] (by decide) (by decide),
   claim9_overstrikes.2.2 ['a', '\n', 'b'] (by decide)⟩

/-- C10 (amended): `execute` of `execute-bash-command` throws, before any
template processing or command execution, exactly when `quiet` is true and
`outputAssign` is set to a non-empty string; the JS truthiness test means an
empty `output-assign` string does not trigger the guard. -/
theorem claim10_guard (params : Bash.ExecuteBashCommandParams) (ctx : Ctx.PipelineCtx) :
    (∃ msg, Bash.executePrefix params ctx = .error msg) ↔
      (Bash.truthyQuiet params.quiet = true ∧
        Bash.truthyAssign params.outputAssign = true) := by
  by_cases h : (Bash.truthyQuiet params.quiet && Bash.truthyAssign params.outputAssign) = true
  · have hred : Bash.executePrefix params ctx
        = .error "Cannot use both quiet and output-assign options together" := by
      unfold Bash.executePrefix
      rw [if_pos h]
    rw [Bool.and_eq_true] at h
    exact ⟨fun _ => h, fun _ => ⟨_, hred⟩⟩
  · have hred : Bash.executePrefix params ctx = .ok (ctx.processTemplate params.command) := by
      unfold Bash.executePrefix
      rw [if_neg h]
    constructor
    · rintro ⟨msg, hmsg⟩
      rw [hred] at hmsg
      cases hmsg
    · rintro ⟨h1, h2⟩
      rw [Bool.and_eq_true] at h
      exact absurd ⟨h1, h2⟩ h

/-- Counterexample for C10 as stated: with `quiet: true` and `output-assign`
present but equal to the empty string, the guard does not fire and execution
proceeds to template processing. -/
theorem claim10_counterexample :
    Bash.quietEmptyAssign.quiet = some true ∧
    Bash.quietEmptyAssign.outputAssign = some "" ∧
    Bash.executePrefix Bash.quietEmptyAssign (Ctx.mkPipelineCtx Ctx.exElementData)
      = .ok ((Ctx.mkPipelineCtx Ctx.exElementData).processTemplate "echo hi") :=
  ⟨rfl, rfl, rfl⟩

end Claims

end Muad
